import Mathlib

/-!
# kubectl-gadget collectors: aggregation, filtering, sorting and rendering

A shallow embedding of `cmd/kubectl-gadget/collector.go`: the two callbacks
`processCollectorCmdRun` and `socketCollectorCmdRun` hand to
`utils.GenericTraceCommand`.  Each callback receives the per-node trace
results, decodes every node's `Status.Output`, concatenates the decoded
records, (for processes) drops thread rows, sorts, and prints either indented
JSON or a tab-separated table.

Conventions of the embedding.

* A Go `string` is a Lean `String`.  Every string held by a record is produced
  by `json.Unmarshal`, which yields valid UTF-8; on valid UTF-8 Go's byte-wise
  `<` coincides with the code-point-wise lexicographic order, which is the
  order of Lean's `String` (`strLt_eq_bytewise`).
* A Go `int` is a Lean `Int`; the code only compares and prints integers, so no
  overflow can occur.
* Functions of the Go standard library that the callbacks call (`json.Unmarshal`,
  `json.MarshalIndent`, the `text/tabwriter` alignment) are parameters of the
  embedding, gathered in `StdLib`.  `sort.Slice` is embedded as `sortSlice`.
-/

namespace Collector

/-! ## Data model -/

/-- The record type `Process` declared inside `processCollectorCmdRun`. -/
structure Process where
  Tgid : Int
  Pid : Int
  Comm : String
  KubernetesNamespace : String
  KubernetesPod : String
  KubernetesContainer : String
  deriving DecidableEq, Repr

/-- Modelled from the spec: the `Event` structure embedded in
`socketcollectortypes.Event`, whose declaration is outside this file.  The spec
gives a socket record the origin fields `node`, `namespace`, `podName`. -/
structure CommonEvent where
  Node : String
  Namespace : String
  Pod : String
  deriving DecidableEq, Repr

/-- Modelled from the spec: `socketcollectortypes.Event`, whose declaration is
outside this file.  The spec gives a socket record exactly nine fields: the
three origin fields, `protocol`, the two addresses, the two ports (integers
0–65535) and `status`.  Field names are the ones `socketCollectorCmdRun`
accesses. -/
structure SocketEvent where
  Event : CommonEvent
  Protocol : String
  LocalAddress : String
  LocalPort : Nat
  RemoteAddress : String
  RemotePort : Nat
  Status : String
  deriving DecidableEq, Repr

/-- Lexicographic comparison of two character sequences: the first position
where they differ decides, and a proper prefix is smaller. -/
def charsLt : List Char → List Char → Bool
  | [], [] => false
  | [], _ :: _ => true
  | _ :: _, [] => false
  | a :: as, b :: bs => if a = b then charsLt as bs else decide (a < b)

/-- Go's `<` on strings.  It is the order `a < b` of Lean's `String`
(`strLt_iff`). -/
def strLt (a b : String) : Bool :=
  charsLt a.data b.data

/-- The UTF-8 encoding of a code point, as byte values. -/
def utf8EncodeNat (n : Nat) : List Nat :=
  if n < 0x80 then [n]
  else if n < 0x800 then [0xC0 + n / 64, 0x80 + n % 64]
  else if n < 0x10000 then [0xE0 + n / 4096, 0x80 + n / 64 % 64, 0x80 + n % 64]
  else [0xF0 + n / 262144, 0x80 + n / 4096 % 64, 0x80 + n / 64 % 64, 0x80 + n % 64]

/-- The bytes of a string: the UTF-8 encodings of its characters, in order. -/
def utf8Bytes (cs : List Char) : List Nat :=
  cs.foldr (fun c bytes => utf8EncodeNat c.toNat ++ bytes) []

/-- Byte-wise comparison of two byte sequences: the first position where they
differ decides, and a proper prefix is smaller. -/
def bytesLt : List Nat → List Nat → Bool
  | [], [] => false
  | [], _ :: _ => true
  | _ :: _, [] => false
  | a :: as, b :: bs => if a = b then bytesLt as bs else decide (a < b)

/-! ## Standard-library collaborators -/

/-- The two kinds of error `json.Unmarshal` returns for a slice destination. -/
inductive JsonError where
  | SyntaxError
  | UnmarshalTypeError
  deriving DecidableEq, Repr

/-- The functions of the Go standard library the callbacks rely on, for a
record type `α`.

* `Unmarshal s` is the effect of `json.Unmarshal([]byte(s), &dst)` on an empty
  destination slice `dst`: the contents of `dst` after the call, and the error
  the call returned (`none` for `nil`).  The callbacks discard the error.
* `MarshalIndent v` is `json.MarshalIndent(v, "", "  ")`.
* `tabwriter text` is what a `tabwriter.NewWriter(os.Stdout, 0, 0, 4, ' ', 0)`
  has written to standard output after `Flush`, when `text` was written to
  it. -/
structure StdLib (α : Type) where
  Unmarshal : String → List α × Option JsonError
  MarshalIndent : List α → Except String String
  tabwriter : String → String

/-! ## Aggregation -/

/-- The loop over `results.Items` (lines 84–88 and 160–164): every item's
output is decoded into a fresh slice, which is appended to the aggregate
whatever `json.Unmarshal` returned. -/
def aggregate {α : Type} (Unmarshal : String → List α × Option JsonError)
    (items : List String) : List α :=
  items.foldl (fun all i => all ++ (Unmarshal i).1) []

/-! ## Filter (process pipeline) -/

/-- The inner loop of lines 90–96: keep the records with `Tgid == Pid`. -/
def trimThreads (allProcesses : List Process) : List Process :=
  allProcesses.foldl
    (fun allProcessesTrimmed i =>
      if i.Tgid == i.Pid then allProcessesTrimmed ++ [i] else allProcessesTrimmed)
    []

/-- Lines 89–97: the trimming runs only when `processCollectorParamThreads` is
false. -/
def filterThreads (processCollectorParamThreads : Bool) (allProcesses : List Process) :
    List Process :=
  if !processCollectorParamThreads then trimThreads allProcesses else allProcesses

/-! ## Comparators -/

/-- The comparator of lines 99–116, on the two records `pi`, `pj`. -/
def processLess (pi pj : Process) : Bool :=
  if pi.KubernetesNamespace != pj.KubernetesNamespace then
    strLt pi.KubernetesNamespace pj.KubernetesNamespace
  else if pi.KubernetesPod != pj.KubernetesPod then
    strLt pi.KubernetesPod pj.KubernetesPod
  else if pi.KubernetesContainer != pj.KubernetesContainer then
    strLt pi.KubernetesContainer pj.KubernetesContainer
  else if pi.Comm != pj.Comm then
    strLt pi.Comm pj.Comm
  else if pi.Tgid != pj.Tgid then
    decide (pi.Tgid < pj.Tgid)
  else
    decide (pi.Pid < pj.Pid)

/-- The comparator of lines 166–188, on the two records `si`, `sj`. -/
def socketLess (si sj : SocketEvent) : Bool :=
  if si.Event.Node != sj.Event.Node then
    strLt si.Event.Node sj.Event.Node
  else if si.Event.Namespace != sj.Event.Namespace then
    strLt si.Event.Namespace sj.Event.Namespace
  else if si.Event.Pod != sj.Event.Pod then
    strLt si.Event.Pod sj.Event.Pod
  else if si.Protocol != sj.Protocol then
    strLt si.Protocol sj.Protocol
  else if si.Status != sj.Status then
    strLt si.Status sj.Status
  else if si.LocalAddress != sj.LocalAddress then
    strLt si.LocalAddress sj.LocalAddress
  else if si.RemoteAddress != sj.RemoteAddress then
    strLt si.RemoteAddress sj.RemoteAddress
  else if si.LocalPort != sj.LocalPort then
    decide (si.LocalPort < sj.LocalPort)
  else
    decide (si.RemotePort < sj.RemotePort)

/-- The key tuple of a process record, in the lexicographic order of the
product: namespace, pod, container, comm, tgid, pid. -/
def processKey (p : Process) : String ×ₗ String ×ₗ String ×ₗ String ×ₗ Int ×ₗ Int :=
  toLex (p.KubernetesNamespace, toLex (p.KubernetesPod, toLex (p.KubernetesContainer,
    toLex (p.Comm, toLex (p.Tgid, p.Pid)))))

/-- The key tuple of a socket record, in the lexicographic order of the
product: node, namespace, pod, protocol, status, local address, remote address,
local port, remote port. -/
def socketKey (s : SocketEvent) :
    String ×ₗ String ×ₗ String ×ₗ String ×ₗ String ×ₗ String ×ₗ String ×ₗ Nat ×ₗ Nat :=
  toLex (s.Event.Node, toLex (s.Event.Namespace, toLex (s.Event.Pod, toLex (s.Protocol,
    toLex (s.Status, toLex (s.LocalAddress, toLex (s.RemoteAddress,
      toLex (s.LocalPort, s.RemotePort))))))))

/-! ## Sorting -/

/-- One pass of the inner loop of the library's insertion sort, on the sorted
prefix held in reverse: the new element `x` moves left past every element `y`
with `less x y`. -/
def sinkLeft {α : Type} (less : α → α → Bool) (x : α) : List α → List α
  | [] => [x]
  | y :: rest => if less x y then y :: sinkLeft less x rest else x :: y :: rest

/-- The embedding of `sort.Slice(data, less)`.  The library documents it as
sorting the slice by `less`, without a stability guarantee; for slices of at
most twelve elements its algorithm is the insertion sort written here, and for
longer ones a quicksort variant.  `sortSlice_unique` shows that for the two
comparators of this file every permutation of the input that is ordered by
`less` is this list, so the choice of algorithm is not observable. -/
def sortSlice {α : Type} (less : α → α → Bool) (data : List α) : List α :=
  (data.foldl (fun sortedRev x => sinkLeft less x sortedRev) []).reverse

/-! ## The JSON decoder of the process pipeline

`json.Unmarshal` belongs to the Go standard library.  The general theorems
below hold for every decoder (`StdLib.Unmarshal`); the concrete scenarios are
evaluated with the following embedding of `json.Unmarshal([]byte(s), &processes)`
for `processes : []Process`, written after the library's documented behaviour:
the input is first checked to be one well-formed JSON value (otherwise a
`SyntaxError` is returned and the destination is untouched), then the value is
stored into the destination, and a JSON value that does not fit the Go type it
meets is skipped, decoding goes on, and an `UnmarshalTypeError` is returned at
the end. -/

/-- A well-formed JSON value.  A number keeps its literal; a string is held
unquoted. -/
inductive JSON where
  | null
  | bool (b : Bool)
  | number (literal : List Char)
  | string (s : String)
  | array (elements : List JSON)
  | object (members : List (String × JSON))

/-- JSON white space. -/
def isSpace (c : Char) : Bool :=
  c = ' ' || c = '\t' || c = '\r' || c = '\n'

/-- Drop leading white space. -/
def skipSpace : List Char → List Char
  | [] => []
  | c :: cs => if isSpace c then skipSpace cs else c :: cs

/-- Value of a hexadecimal digit. -/
def hexDigit (c : Char) : Option Nat :=
  if '0' ≤ c ∧ c ≤ '9' then some (c.toNat - '0'.toNat)
  else if 'a' ≤ c ∧ c ≤ 'f' then some (c.toNat - 'a'.toNat + 10)
  else if 'A' ≤ c ∧ c ≤ 'F' then some (c.toNat - 'A'.toNat + 10)
  else none

/-- The library's `getu4`: the code unit written by four hexadecimal digits. -/
def getu4 (h1 h2 h3 h4 : Char) : Option Nat :=
  match hexDigit h1, hexDigit h2, hexDigit h3, hexDigit h4 with
  | some a, some b, some c, some d => some (((a * 16 + b) * 16 + c) * 16 + d)
  | _, _, _, _ => none

/-- The character a one-letter escape stands for. -/
def unescape (e : Char) : Option Char :=
  if e = '"' then some '"'
  else if e = '\\' then some '\\'
  else if e = '/' then some '/'
  else if e = 'b' then some (Char.ofNat 8)
  else if e = 'f' then some (Char.ofNat 12)
  else if e = 'n' then some '\n'
  else if e = 'r' then some '\r'
  else if e = 't' then some '\t'
  else none

/-- Put a character in front of a scanned string. -/
def consChar (c : Char) (r : Option (List Char × List Char)) : Option (List Char × List Char) :=
  match r with
  | some (s, rest) => some (c :: s, rest)
  | none => none

/-- Scan a JSON string whose opening quote has been read: the unquoted
characters and the input after the closing quote.  A control character, an
unknown escape or a missing closing quote is a syntax error; `\uXXXX` yields the
code unit, a valid surrogate pair the character it encodes, and a surrogate
that is not the first half of a valid pair U+FFFD. -/
def scanString : Nat → List Char → Option (List Char × List Char)
  | 0, _ => none
  | _ + 1, [] => none
  | fuel + 1, c :: cs =>
    if c = '"' then some ([], cs)
    else if c = '\\' then
      match cs with
      | [] => none
      | e :: cs1 =>
        if e = 'u' then
          match cs1 with
          | h1 :: h2 :: h3 :: h4 :: cs2 =>
            match getu4 h1 h2 h3 h4 with
            | none => none
            | some u =>
              if 0xD800 ≤ u ∧ u < 0xE000 then
                match cs2 with
                | b :: v :: g1 :: g2 :: g3 :: g4 :: cs3 =>
                  match getu4 g1 g2 g3 g4 with
                  | some u2 =>
                    if b = '\\' ∧ v = 'u' ∧ u < 0xDC00 ∧ 0xDC00 ≤ u2 ∧ u2 < 0xE000 then
                      consChar (Char.ofNat ((u - 0xD800) * 1024 + (u2 - 0xDC00) + 0x10000))
                        (scanString fuel cs3)
                    else consChar (Char.ofNat 0xFFFD) (scanString fuel cs2)
                  | none => consChar (Char.ofNat 0xFFFD) (scanString fuel cs2)
                | _ => consChar (Char.ofNat 0xFFFD) (scanString fuel cs2)
              else consChar (Char.ofNat u) (scanString fuel cs2)
          | _ => none
        else
          match unescape e with
          | some ch => consChar ch (scanString fuel cs1)
          | none => none
    else if c.toNat < 0x20 then none
    else consChar c (scanString fuel cs)

/-- The leading decimal digits of the input, and the rest. -/
def spanDigits : List Char → List Char × List Char
  | [] => ([], [])
  | c :: cs =>
    if c.isDigit then ((spanDigits cs).1.cons c, (spanDigits cs).2) else ([], c :: cs)

/-- Scan the integer part of a JSON number: `0`, or a non-zero digit followed
by digits. -/
def scanIntPart : List Char → Option (List Char × List Char)
  | [] => none
  | c :: cs =>
    if c = '0' then some (['0'], cs)
    else if c.isDigit then some (c :: (spanDigits cs).1, (spanDigits cs).2)
    else none

/-- Scan an optional fraction: `.` and at least one digit. -/
def scanFraction : List Char → Option (List Char × List Char)
  | '.' :: cs =>
    match spanDigits cs with
    | ([], _) => none
    | (ds, rest) => some ('.' :: ds, rest)
  | cs => some ([], cs)

/-- Scan an optional exponent: `e` or `E`, an optional sign, at least one
digit. -/
def scanExponent : List Char → Option (List Char × List Char)
  | [] => some ([], [])
  | c :: cs =>
    if c = 'e' ∨ c = 'E' then
      match cs with
      | [] => none
      | sgn :: cs1 =>
        if sgn = '+' ∨ sgn = '-' then
          match spanDigits cs1 with
          | ([], _) => none
          | (ds, rest) => some (c :: sgn :: ds, rest)
        else
          match spanDigits cs with
          | ([], _) => none
          | (ds, rest) => some (c :: ds, rest)
    else some ([], c :: cs)

/-- Scan a JSON number: its literal and the input after it. -/
def scanNumber (cs : List Char) : Option (List Char × List Char) :=
  let signed : List Char × List Char :=
    match cs with
    | '-' :: rest => (['-'], rest)
    | _ => ([], cs)
  match scanIntPart signed.2 with
  | none => none
  | some (ip, r1) =>
    match scanFraction r1 with
    | none => none
    | some (fp, r2) =>
      match scanExponent r2 with
      | none => none
      | some (ep, r3) => some (signed.1 ++ ip ++ fp ++ ep, r3)

mutual

/-- Parse one JSON value at the head of the input (white space already
skipped); `fuel` bounds the recursion. -/
def parseValue : Nat → List Char → Option (JSON × List Char)
  | 0, _ => none
  | _ + 1, [] => none
  | fuel + 1, c :: cs =>
    if c = '{' then
      match skipSpace cs with
      | '}' :: rest => some (JSON.object [], rest)
      | rest =>
        match parseMembers fuel rest with
        | some (ms, rest2) => some (JSON.object ms, rest2)
        | none => none
    else if c = '[' then
      match skipSpace cs with
      | ']' :: rest => some (JSON.array [], rest)
      | rest =>
        match parseElements fuel rest with
        | some (vs, rest2) => some (JSON.array vs, rest2)
        | none => none
    else if c = '"' then
      match scanString (cs.length + 1) cs with
      | some (s, rest) => some (JSON.string (String.mk s), rest)
      | none => none
    else
      match c :: cs with
      | 't' :: 'r' :: 'u' :: 'e' :: rest => some (JSON.bool true, rest)
      | 'f' :: 'a' :: 'l' :: 's' :: 'e' :: rest => some (JSON.bool false, rest)
      | 'n' :: 'u' :: 'l' :: 'l' :: rest => some (JSON.null, rest)
      | other =>
        match scanNumber other with
        | some (lit, rest) => some (JSON.number lit, rest)
        | none => none

/-- Parse the elements of a non-empty array up to and including `]`. -/
def parseElements : Nat → List Char → Option (List JSON × List Char)
  | 0, _ => none
  | fuel + 1, cs =>
    match parseValue fuel cs with
    | none => none
    | some (v, rest) =>
      match skipSpace rest with
      | ',' :: rest2 =>
        match parseElements fuel (skipSpace rest2) with
        | some (vs, rest3) => some (v :: vs, rest3)
        | none => none
      | ']' :: rest2 => some ([v], rest2)
      | _ => none

/-- Parse the members of a non-empty object up to and including `}`. -/
def parseMembers : Nat → List Char → Option (List (String × JSON) × List Char)
  | 0, _ => none
  | fuel + 1, cs =>
    match cs with
    | '"' :: cs1 =>
      match scanString (cs1.length + 1) cs1 with
      | none => none
      | some (k, rest) =>
        match skipSpace rest with
        | ':' :: rest1 =>
          match parseValue fuel (skipSpace rest1) with
          | none => none
          | some (v, rest2) =>
            match skipSpace rest2 with
            | ',' :: rest3 =>
              match parseMembers fuel (skipSpace rest3) with
              | some (ms, rest4) => some ((String.mk k, v) :: ms, rest4)
              | none => none
            | '}' :: rest3 => some ([(String.mk k, v)], rest3)
            | _ => none
        | _ => none
    | _ => none

end

/-- The library's validity check together with the scan: the input is one JSON
value surrounded by optional white space, or it is a syntax error.  The fuel
exceeds twice the length of the input, which the recursion cannot use up; the
library's limit of 10000 on the nesting depth is not modelled. -/
def parseJSON (s : String) : Option JSON :=
  match parseValue (2 * s.length + 2) (skipSpace s.data) with
  | some (v, rest) => if skipSpace rest = [] then some v else none
  | none => none

/-- The value of a string of decimal digits. -/
def digitsValue (ds : List Char) : Nat :=
  ds.foldl (fun n c => 10 * n + (c.toNat - '0'.toNat)) 0

/-- The library's `strconv.ParseInt(literal, 10, 64)` on the literal of a JSON
number: an optional minus sign and digits only, within the range of a 64-bit
integer; anything else (a fraction, an exponent, an overflow) is no `int`. -/
def parseInt64 (literal : List Char) : Option Int :=
  let v : Option Int :=
    match literal with
    | '-' :: ds => if ds.all Char.isDigit then some (-(digitsValue ds : Int)) else none
    | ds => if ds.all Char.isDigit then some (digitsValue ds : Int) else none
  match v with
  | some n => if -(2 ^ 63 : Int) ≤ n ∧ n < (2 ^ 63 : Int) then some n else none
  | none => none

/-- Case folding of the library's field lookup, as far as it can reach an ASCII
letter: ASCII lower case becomes upper case, and the two non-ASCII characters
whose simple case folding is an ASCII letter (U+017F, U+212A) become `S` and
`K`. -/
def foldChar (c : Char) : Char :=
  if 'a' ≤ c ∧ c ≤ 'z' then Char.ofNat (c.toNat - 32)
  else if c = Char.ofNat 0x17F then 'S'
  else if c = Char.ofNat 0x212A then 'K'
  else c

/-- The library matches an object key to a struct field when the names are
equal or equal under case folding. -/
def equalFold (name key : String) : Bool :=
  name.data.map foldChar = key.data.map foldChar

/-- Store a JSON value into an `int` field: a number that parses as a 64-bit
integer is stored, `null` leaves the field, anything else leaves the field and
is a type error. -/
def storeInt (old : Int) (v : JSON) : Int × Bool :=
  match v with
  | JSON.null => (old, false)
  | JSON.number lit =>
    match parseInt64 lit with
    | some n => (n, false)
    | none => (old, true)
  | _ => (old, true)

/-- Store a JSON value into a `string` field: a string is stored, `null`
leaves the field, anything else leaves the field and is a type error. -/
def storeString (old : String) (v : JSON) : String × Bool :=
  match v with
  | JSON.null => (old, false)
  | JSON.string s => (s, false)
  | _ => (old, true)

/-- Store one object member into a `Process`, by the `json` tags of the
struct (`tgid`, `pid`, `comm`, `namespace`, `pod`, `container`); a key that
matches no field is skipped.  The flag tells whether a type error occurred. -/
def storeMember (p : Process) (member : String × JSON) : Process × Bool :=
  if equalFold "tgid" member.1 then
    ({ p with Tgid := (storeInt p.Tgid member.2).1 }, (storeInt p.Tgid member.2).2)
  else if equalFold "pid" member.1 then
    ({ p with Pid := (storeInt p.Pid member.2).1 }, (storeInt p.Pid member.2).2)
  else if equalFold "comm" member.1 then
    ({ p with Comm := (storeString p.Comm member.2).1 }, (storeString p.Comm member.2).2)
  else if equalFold "namespace" member.1 then
    ({ p with KubernetesNamespace := (storeString p.KubernetesNamespace member.2).1 },
      (storeString p.KubernetesNamespace member.2).2)
  else if equalFold "pod" member.1 then
    ({ p with KubernetesPod := (storeString p.KubernetesPod member.2).1 },
      (storeString p.KubernetesPod member.2).2)
  else if equalFold "container" member.1 then
    ({ p with KubernetesContainer := (storeString p.KubernetesContainer member.2).1 },
      (storeString p.KubernetesContainer member.2).2)
  else (p, false)

/-- The zero value of `Process`. -/
def Process.zero : Process := ⟨0, 0, "", "", "", ""⟩

/-- Decode one array element into a new (zero) `Process`: an object stores its
members in order, `null` leaves the zero value, and any other value leaves the
zero value and is a type error. -/
def decodeProcess (v : JSON) : Process × Bool :=
  match v with
  | JSON.object members =>
    members.foldl
      (fun acc m => ((storeMember acc.1 m).1, acc.2 || (storeMember acc.1 m).2))
      (Process.zero, false)
  | JSON.null => (Process.zero, false)
  | _ => (Process.zero, true)

/-- The embedding of `json.Unmarshal([]byte(s), &processes)` for an empty
`processes : []Process`: the slice after the call and the error returned.

* Input that is not one well-formed JSON value: `SyntaxError`, slice untouched.
* An array: one element of the slice per array element, each decoded by
  `decodeProcess`; if any value did not fit its Go type, the slice is still
  filled and `UnmarshalTypeError` is returned.
* `null`: the slice is set to `nil`, no error.
* Any other value: `UnmarshalTypeError`, slice untouched. -/
def jsonUnmarshalProcesses (s : String) : List Process × Option JsonError :=
  match parseJSON s with
  | none => ([], some JsonError.SyntaxError)
  | some (JSON.array elements) =>
    ((elements.map decodeProcess).map Prod.fst,
      if (elements.map decodeProcess).any Prod.snd then some JsonError.UnmarshalTypeError
      else none)
  | some JSON.null => ([], none)
  | some _ => ([], some JsonError.UnmarshalTypeError)

/-! ## Rendering -/

/-- The `%d` verb of `fmt` on an integer: its decimal digits, with a leading
minus sign when negative. -/
def formatD (n : Int) : String :=
  if n < 0 then "-" ++ Nat.repr n.natAbs else Nat.repr n.natAbs

/-- The value of `params.OutputMode`, as far as the callbacks look at it: it is
`utils.OutputModeJson` or it is not. -/
inductive OutputMode where
  | OutputModeJson
  | other
  deriving DecidableEq, Repr

/-- What a run of a callback leaves to observe: the text on standard output,
and the message of `contextLogger.Fatalf`, which logs and ends the process, if
it was reached.  The callbacks write to no other channel. -/
structure Observed where
  stdout : String
  fatal : Option String
  deriving DecidableEq, Repr

/-- Lines 125–148: the text written to the tabwriter `w` for the process
table, one `Fprintln`/`Fprintf` call after the other. -/
def processTable (processCollectorParamThreads : Bool) (allProcesses : List Process) : String :=
  if processCollectorParamThreads then
    allProcesses.foldl
      (fun w p =>
        w ++ (p.KubernetesNamespace ++ "\t" ++ p.KubernetesPod ++ "\t" ++
          p.KubernetesContainer ++ "\t" ++ p.Comm ++ "\t" ++ formatD p.Tgid ++ "\t" ++
          formatD p.Pid ++ "\t\n"))
      ("NAMESPACE\tPOD\tCONTAINER\tCOMM\tTGID\tPID\t" ++ "\n")
  else
    allProcesses.foldl
      (fun w p =>
        w ++ (p.KubernetesNamespace ++ "\t" ++ p.KubernetesPod ++ "\t" ++
          p.KubernetesContainer ++ "\t" ++ p.Comm ++ "\t" ++ formatD p.Pid ++ "\t\n"))
      ("NAMESPACE\tPOD\tCONTAINER\tCOMM\tPID\t" ++ "\n")

/-- Lines 199–213: the text written to the tabwriter `w` for the socket
table. -/
def socketTable (allSockets : List SocketEvent) : String :=
  allSockets.foldl
    (fun w s =>
      w ++ (s.Event.Node ++ "\t" ++ s.Event.Namespace ++ "\t" ++ s.Event.Pod ++ "\t" ++
        s.Protocol ++ "\t" ++ s.LocalAddress ++ ":" ++ Nat.repr s.LocalPort ++ "\t" ++
        s.RemoteAddress ++ ":" ++ Nat.repr s.RemotePort ++ "\t" ++ s.Status ++ "\n"))
    ("NODE\tNAMESPACE\tPOD\tPROTOCOL\tLOCAL\tREMOTE\tSTATUS" ++ "\n")

/-- Lines 117–122 and 190–195: structured output.  A marshalling error is
fatal and nothing is printed; otherwise the document and a newline are
printed. -/
def renderJson {α : Type} (lib : StdLib α) (all : List α) : Observed :=
  match lib.MarshalIndent all with
  | Except.error err => ⟨"", some ("Error marshalling results: " ++ err)⟩
  | Except.ok b => ⟨b ++ "\n", none⟩

/-! ## The JSON encoder of the process pipeline

`json.MarshalIndent` belongs to the Go standard library.  The following is its
embedding for a value of type `[]Process`, prefix `""` and indent `"  "`,
written after the library's documented behaviour and the `json` tags of the
struct: fields appear in declaration order under their tag names, a field
tagged `omitempty` is left out when it is `0` or `""`, strings are quoted with
the library's escapes (HTML escaping on), and each element and each member
goes on an indented line of its own, while an empty array or object stays `[]`
or `{}`. -/

/-- The lower-case hexadecimal digit of a value below sixteen. -/
def hexChar (n : Nat) : Char :=
  if n < 10 then Char.ofNat (48 + n) else Char.ofNat (87 + n)

/-- How the encoder writes one character of a string: the quote, the backslash,
newline, carriage return and tab get a two-character escape; the other control
characters and `<`, `>`, `&` are written as a backslash, `u00` and two
hexadecimal digits; U+2028 and U+2029 are written as a backslash and `u2028`,
`u2029`; every other character stands for itself. -/
def escapeChar (c : Char) : List Char :=
  if c = '"' then ['\\', '"']
  else if c = '\\' then ['\\', '\\']
  else if c = '\n' then ['\\', 'n']
  else if c = '\r' then ['\\', 'r']
  else if c = '\t' then ['\\', 't']
  else if c.toNat < 0x20 ∨ c = '<' ∨ c = '>' ∨ c = '&' then
    ['\\', 'u', '0', '0', hexChar (c.toNat / 16), hexChar (c.toNat % 16)]
  else if c = Char.ofNat 0x2028 then ['\\', 'u', '2', '0', '2', '8']
  else if c = Char.ofNat 0x2029 then ['\\', 'u', '2', '0', '2', '9']
  else [c]

/-- The characters of a string between the quotes, escaped, followed by the
closing quote and `rest`. -/
def escapeThenQuote (cs rest : List Char) : List Char :=
  cs.foldr (fun c text => escapeChar c ++ text) ('"' :: rest)

/-- A string as the encoder writes it. -/
def quoteString (s : String) : List Char :=
  '"' :: escapeThenQuote s.data []

/-- The members the encoder writes for a `Process`, as tag name and value
text: the six fields in declaration order, each left out when empty
(`omitempty`). -/
def marshalMembers (p : Process) : List (String × List Char) :=
  (if p.Tgid = 0 then [] else [("tgid", (formatD p.Tgid).data)]) ++
    ((if p.Pid = 0 then [] else [("pid", (formatD p.Pid).data)]) ++
      ((if p.Comm = "" then [] else [("comm", quoteString p.Comm)]) ++
        ((if p.KubernetesNamespace = "" then []
            else [("namespace", quoteString p.KubernetesNamespace)]) ++
          ((if p.KubernetesPod = "" then [] else [("pod", quoteString p.KubernetesPod)]) ++
            (if p.KubernetesContainer = "" then []
              else [("container", quoteString p.KubernetesContainer)])))))

/-- One member on its own line, four spaces deep: the quoted name, a colon, a
space, the value. -/
def indentMember (m : String × List Char) : List Char :=
  '\n' :: ' ' :: ' ' :: ' ' :: ' ' :: '"' :: (m.1.data ++ '"' :: ':' :: ' ' :: m.2)

/-- The members of a non-empty object after the first, each after a comma, then
the closing brace on a line of its own, two spaces deep, then `rest`. -/
def indentMoreMembers (ms : List (String × List Char)) (rest : List Char) : List Char :=
  ms.foldr (fun m text => ',' :: (indentMember m ++ text)) ('\n' :: ' ' :: ' ' :: '}' :: rest)

/-- An object of the array, followed by `rest`. -/
def indentObject (p : Process) (rest : List Char) : List Char :=
  match marshalMembers p with
  | [] => '{' :: '}' :: rest
  | m :: ms => '{' :: (indentMember m ++ indentMoreMembers ms rest)

/-- The elements of a non-empty array after the first, each after a comma on a
line of its own, two spaces deep, then the closing bracket on its own line,
then `rest`. -/
def indentMoreElements (ps : List Process) (rest : List Char) : List Char :=
  ps.foldr (fun p text => ',' :: '\n' :: ' ' :: ' ' :: indentObject p text)
    ('\n' :: ']' :: rest)

/-- The indented document for a slice of processes, followed by `rest`. -/
def indentArray (v : List Process) (rest : List Char) : List Char :=
  match v with
  | [] => '[' :: ']' :: rest
  | p :: ps => '[' :: '\n' :: ' ' :: ' ' :: indentObject p (indentMoreElements ps rest)

/-- The embedding of `json.MarshalIndent(allProcesses, "", "  ")` for a
non-nil `allProcesses : []Process`; it cannot fail on this type. -/
def jsonMarshalIndentProcesses (v : List Process) : Except String String :=
  Except.ok (String.mk (indentArray v []))

/-- The library as the process callback uses it, with the embeddings of the
decoder and the encoder of this file and a given tabwriter. -/
def processStdLib (tabwriter : String → String) : StdLib Process :=
  ⟨jsonUnmarshalProcesses, jsonMarshalIndentProcesses, tabwriter⟩

/-! ### What the encoder writes, read back -/

/-- The text `lit` is the decimal literal of the non-zero integer `n`: a minus
sign when `n` is negative, then a non-zero digit, then digits, of value `|n|`. -/
structure IsDecimalOf (lit : List Char) (n : Int) : Prop where
  shape : ∃ d tl, lit = (if n < 0 then ['-'] else []) ++ d :: tl ∧ d.isDigit = true ∧ d ≠ '0' ∧
    d ≠ '-' ∧ (∀ c ∈ tl, c.isDigit = true) ∧ digitsValue (d :: tl) = n.natAbs

/-- The text the encoder writes for a value: the literal of a number, the quoted
form of a string. -/
def valueText : JSON → List Char
  | JSON.number literal => literal
  | JSON.string s => quoteString s
  | _ => []

/-- A member the encoder writes is read back by the parser: its name scans as a
string, its value text parses to the value when a comma or a newline follows,
and the value text does not start with white space. -/
structure GoodField (key : String) (v : JSON) : Prop where
  key_scan : ∀ (fuel : Nat) (rest : List Char), key.data.length < fuel →
    scanString fuel (key.data ++ '"' :: rest) = some (key.data, rest)
  value_parse : ∀ (fuel : Nat) (c : Char) (rest : List Char), c = ',' ∨ c = '\n' →
    parseValue (fuel + 1) (valueText v ++ c :: rest) = some (v, c :: rest)
  value_head : ∀ rest : List Char, skipSpace (valueText v ++ rest) = valueText v ++ rest

/-- The fields the encoder writes for a `Process`, as tag name and JSON value:
the six fields in declaration order, each left out when empty. -/
def marshalFields (p : Process) : List (String × JSON) :=
  (if p.Tgid = 0 then [] else [("tgid", JSON.number (formatD p.Tgid).data)]) ++
    ((if p.Pid = 0 then [] else [("pid", JSON.number (formatD p.Pid).data)]) ++
      ((if p.Comm = "" then [] else [("comm", JSON.string p.Comm)]) ++
        ((if p.KubernetesNamespace = "" then []
            else [("namespace", JSON.string p.KubernetesNamespace)]) ++
          ((if p.KubernetesPod = "" then [] else [("pod", JSON.string p.KubernetesPod)]) ++
            (if p.KubernetesContainer = "" then []
              else [("container", JSON.string p.KubernetesContainer)])))))

/-- The range of a Go `int` (64 bits). -/
def inInt64 (n : Int) : Prop := -(2 ^ 63 : Int) ≤ n ∧ n < (2 ^ 63 : Int)

instance (n : Int) : Decidable (inInt64 n) := by
  unfold inInt64
  infer_instance

/-! ## The two callbacks -/

/-- Lines 82–116: the records handed to the renderer of the process pipeline. -/
def processRecords (Unmarshal : String → List Process × Option JsonError)
    (processCollectorParamThreads : Bool) (items : List String) : List Process :=
  sortSlice processLess (filterThreads processCollectorParamThreads (aggregate Unmarshal items))

/-- The callback of `processCollectorCmdRun` on the outputs `items` of
`results.Items`. -/
def processCollectorCmdRun (lib : StdLib Process) (outputMode : OutputMode)
    (processCollectorParamThreads : Bool) (items : List String) : Observed :=
  let allProcesses := processRecords lib.Unmarshal processCollectorParamThreads items
  if outputMode = OutputMode.OutputModeJson then renderJson lib allProcesses
  else ⟨lib.tabwriter (processTable processCollectorParamThreads allProcesses), none⟩

/-- Lines 158–188: the records handed to the renderer of the socket pipeline. -/
def socketRecords (Unmarshal : String → List SocketEvent × Option JsonError)
    (items : List String) : List SocketEvent :=
  sortSlice socketLess (aggregate Unmarshal items)

/-- The callback of `socketCollectorCmdRun` on the outputs `items` of
`results.Items`. -/
def socketCollectorCmdRun (lib : StdLib SocketEvent) (outputMode : OutputMode)
    (items : List String) : Observed :=
  let allSockets := socketRecords lib.Unmarshal items
  if outputMode = OutputMode.OutputModeJson then renderJson lib allSockets
  else ⟨lib.tabwriter (socketTable allSockets), none⟩

/-! ## The table as the specification words it -/

/-- A row of tab-terminated cells: every cell is followed by a tab, and the row
ends with a newline. -/
def tabTerminatedRow (cells : List String) : String :=
  cells.foldr (fun cell row => cell ++ "\t" ++ row) "\n"

/-- A table of tab-terminated cells: the header row, then the rows in order. -/
def tabTerminatedTable (header : List String) (rows : List (List String)) : String :=
  tabTerminatedRow header ++ rows.foldr (fun row text => tabTerminatedRow row ++ text) ""

/-- A row of tab-separated cells: a tab between consecutive cells, and a
newline after the last. -/
def tabSeparatedRow : List String → String
  | [] => "\n"
  | [cell] => cell ++ "\n"
  | cell :: next :: cells => cell ++ "\t" ++ tabSeparatedRow (next :: cells)

/-- A table of tab-separated cells: the header row, then the rows in order. -/
def tabSeparatedTable (header : List String) (rows : List (List String)) : String :=
  tabSeparatedRow header ++ rows.foldr (fun row text => tabSeparatedRow row ++ text) ""

/-! ## Scenario inputs -/

/-- Scenario A, first node: one process `init` of `kube-system/p1/c1`, tgid 1,
pid 1. -/
def scenarioA_node1 : String :=
  "[\x7b\"tgid\":1,\"pid\":1,\"comm\":\"init\",\"namespace\":\"kube-system\",\"pod\":\"p1\",\"container\":\"c1\"\x7d]"

/-- Scenario A, second node: one record `sleep` of `default/p2/c2`, tgid 2,
pid 5. -/
def scenarioA_node2 : String :=
  "[\x7b\"tgid\":2,\"pid\":5,\"comm\":\"sleep\",\"namespace\":\"default\",\"pod\":\"p2\",\"container\":\"c2\"\x7d]"

/-- A fragment that is not JSON. -/
def malformedFragment : String := "not json"

/-- A fragment that is well-formed JSON but gives `namespace` as a number: the
decoder fills the other fields and returns a type error. -/
def mistypedFragment : String :=
  "[\x7b\"tgid\":1,\"pid\":1,\"comm\":\"init\",\"namespace\":5,\"pod\":\"p1\",\"container\":\"c1\"\x7d]"

end Collector

namespace Collector

theorem charsLt_iff : ∀ (a b : List Char), charsLt a b = true ↔ a < b
  | [], [] => by simp [charsLt]
  | [], _ :: _ => by simp only [charsLt, true_iff]; exact List.Lex.nil
  | _ :: _, [] => by simp [charsLt]
  | a :: as, b :: bs => by
    unfold charsLt
    by_cases h : a = b
    · subst h
      simp only [if_true]
      rw [charsLt_iff as bs]
      exact List.Lex.cons_iff.symm
    · simp only [h, if_false, decide_eq_true_iff]
      constructor
      · intro hlt
        exact List.Lex.rel hlt
      · intro hlt
        cases hlt with
        | cons _ => exact absurd rfl h
        | rel hr => exact hr

theorem strLt_iff (a b : String) : strLt a b = true ↔ a < b := by
  unfold strLt
  rw [charsLt_iff]
  exact String.lt_iff_toList_lt.symm

/-! ### String order is byte order -/

theorem char_lt_iff_toNat (c d : Char) : c < d ↔ c.toNat < d.toNat := by
  rw [Char.lt_def]
  exact Iff.rfl

theorem char_toNat_ne (c d : Char) (h : c ≠ d) : c.toNat ≠ d.toNat := by
  intro hn
  apply h
  apply Char.ext
  apply UInt32.ext
  exact hn

/-- UTF-8 preserves order: the encodings of two different code points compare,
byte-wise, as the code points do, whatever follows them. -/
theorem bytesLt_encode_ne (n m : Nat) (h : n ≠ m) (x y : List Nat) :
    bytesLt (utf8EncodeNat n ++ x) (utf8EncodeNat m ++ y) = decide (n < m) := by
  unfold utf8EncodeNat
  split_ifs <;> simp only [List.cons_append, List.nil_append, bytesLt] <;>
    split_ifs <;> first | omega | (simp only [decide_eq_decide] <;> omega)

theorem bytesLt_append_left : ∀ (p x y : List Nat), bytesLt (p ++ x) (p ++ y) = bytesLt x y
  | [], _, _ => rfl
  | a :: p, x, y => by
    simp only [List.cons_append, bytesLt, if_true]
    exact bytesLt_append_left p x y

theorem utf8EncodeNat_ne_nil (n : Nat) : ∃ b bs, utf8EncodeNat n = b :: bs := by
  unfold utf8EncodeNat
  split_ifs <;> exact ⟨_, _, rfl⟩

theorem charsLt_eq_bytesLt :
    ∀ (a b : List Char), charsLt a b = bytesLt (utf8Bytes a) (utf8Bytes b)
  | [], [] => rfl
  | [], d :: bs => by
    obtain ⟨z, zs, hz⟩ := utf8EncodeNat_ne_nil d.toNat
    simp [charsLt, utf8Bytes, hz, bytesLt]
  | c :: as, [] => by
    obtain ⟨z, zs, hz⟩ := utf8EncodeNat_ne_nil c.toNat
    simp [charsLt, utf8Bytes, hz, bytesLt]
  | c :: as, d :: bs => by
    by_cases h : c = d
    · subst h
      simp only [charsLt, if_true, utf8Bytes, List.foldr_cons]
      rw [bytesLt_append_left]
      exact charsLt_eq_bytesLt as bs
    · simp only [charsLt, h, if_false, utf8Bytes, List.foldr_cons]
      rw [bytesLt_encode_ne _ _ (char_toNat_ne c d h)]
      simp only [decide_eq_decide]
      exact char_lt_iff_toNat c d

/-- The comparison of two strings is the byte-wise comparison of their UTF-8
encodings. -/
theorem strLt_eq_bytewise (a b : String) :
    strLt a b = bytesLt (utf8Bytes a.data) (utf8Bytes b.data) :=
  charsLt_eq_bytesLt a.data b.data

theorem processLess_iff (a b : Process) : processLess a b = true ↔ processKey a < processKey b := by
  unfold processLess processKey
  simp only [Prod.Lex.lt_iff, bne_iff_ne, ne_eq, ite_not]
  split_ifs <;> simp_all [strLt_iff]

theorem socketLess_iff (a b : SocketEvent) : socketLess a b = true ↔ socketKey a < socketKey b := by
  unfold socketLess socketKey
  simp only [Prod.Lex.lt_iff, bne_iff_ne, ne_eq, ite_not]
  split_ifs <;> simp_all [strLt_iff]

theorem processKey_injective : Function.Injective processKey := by
  intro a b h
  have h1 : a.KubernetesNamespace = b.KubernetesNamespace :=
    congrArg (fun k => (ofLex k).1) h
  have h2 : a.KubernetesPod = b.KubernetesPod :=
    congrArg (fun k => (ofLex (ofLex k).2).1) h
  have h3 : a.KubernetesContainer = b.KubernetesContainer :=
    congrArg (fun k => (ofLex (ofLex (ofLex k).2).2).1) h
  have h4 : a.Comm = b.Comm :=
    congrArg (fun k => (ofLex (ofLex (ofLex (ofLex k).2).2).2).1) h
  have h5 : a.Tgid = b.Tgid :=
    congrArg (fun k => (ofLex (ofLex (ofLex (ofLex (ofLex k).2).2).2).2).1) h
  have h6 : a.Pid = b.Pid :=
    congrArg (fun k => (ofLex (ofLex (ofLex (ofLex (ofLex k).2).2).2).2).2) h
  cases a
  cases b
  simp_all

theorem socketKey_injective : Function.Injective socketKey := by
  intro a b h
  have h1 : a.Event.Node = b.Event.Node :=
    congrArg (fun k => (ofLex k).1) h
  have h2 : a.Event.Namespace = b.Event.Namespace :=
    congrArg (fun k => (ofLex (ofLex k).2).1) h
  have h3 : a.Event.Pod = b.Event.Pod :=
    congrArg (fun k => (ofLex (ofLex (ofLex k).2).2).1) h
  have h4 : a.Protocol = b.Protocol :=
    congrArg (fun k => (ofLex (ofLex (ofLex (ofLex k).2).2).2).1) h
  have h5 : a.Status = b.Status :=
    congrArg (fun k => (ofLex (ofLex (ofLex (ofLex (ofLex k).2).2).2).2).1) h
  have h6 : a.LocalAddress = b.LocalAddress :=
    congrArg (fun k => (ofLex (ofLex (ofLex (ofLex (ofLex (ofLex k).2).2).2).2).2).1) h
  have h7 : a.RemoteAddress = b.RemoteAddress :=
    congrArg (fun k => (ofLex (ofLex (ofLex (ofLex (ofLex (ofLex (ofLex k).2).2).2).2).2).2).1) h
  have h8 : a.LocalPort = b.LocalPort :=
    congrArg
      (fun k => (ofLex (ofLex (ofLex (ofLex (ofLex (ofLex (ofLex (ofLex k).2).2).2).2).2).2).2).1) h
  have h9 : a.RemotePort = b.RemotePort :=
    congrArg
      (fun k => (ofLex (ofLex (ofLex (ofLex (ofLex (ofLex (ofLex (ofLex k).2).2).2).2).2).2).2).2) h
  obtain ⟨⟨n1, ns1, p1⟩, pr1, la1, lp1, ra1, rp1, st1⟩ := a
  obtain ⟨⟨n2, ns2, p2⟩, pr2, la2, lp2, ra2, rp2, st2⟩ := b
  simp_all

/-! ### The sort: permutation, order, uniqueness -/

section SortSlice

variable {α : Type} {κ : Type} [LinearOrder κ]

theorem sinkLeft_perm (less : α → α → Bool) (x : α) :
    ∀ l : List α, (sinkLeft less x l).Perm (x :: l)
  | [] => List.Perm.refl _
  | y :: rest => by
    unfold sinkLeft
    split_ifs
    · exact ((sinkLeft_perm less x rest).cons y).trans (List.Perm.swap x y rest)
    · exact List.Perm.refl _

theorem foldl_sinkLeft_perm (less : α → α → Bool) :
    ∀ (data acc : List α),
      (data.foldl (fun sortedRev x => sinkLeft less x sortedRev) acc).Perm (data ++ acc)
  | [], acc => List.Perm.refl _
  | x :: rest, acc => by
    simp only [List.foldl_cons, List.cons_append]
    refine (foldl_sinkLeft_perm less rest _).trans ?_
    refine (List.Perm.append_left rest (sinkLeft_perm less x acc)).trans ?_
    exact List.perm_middle

theorem sortSlice_perm (less : α → α → Bool) (data : List α) :
    (sortSlice less data).Perm data := by
  unfold sortSlice
  refine (List.reverse_perm _).trans ?_
  simpa using foldl_sinkLeft_perm less data []

theorem sinkLeft_descending (less : α → α → Bool) (key : α → κ)
    (hless : ∀ a b, less a b = true ↔ key a < key b) (x : α) :
    ∀ l : List α, l.Pairwise (fun a b => key b ≤ key a) →
      (sinkLeft less x l).Pairwise (fun a b => key b ≤ key a)
  | [], _ => List.pairwise_singleton _ _
  | y :: rest, h => by
    unfold sinkLeft
    rw [List.pairwise_cons] at h
    split_ifs with hxy
    · rw [List.pairwise_cons]
      refine ⟨?_, sinkLeft_descending less key hless x rest h.2⟩
      intro z hz
      have hz2 : z = x ∨ z ∈ rest := List.mem_cons.mp ((sinkLeft_perm less x rest).mem_iff.mp hz)
      cases hz2 with
      | inl hzx =>
        rw [hzx]
        exact le_of_lt ((hless x y).mp hxy)
      | inr hzr => exact h.1 z hzr
    · have hyx : key y ≤ key x := by
        rw [← not_lt]
        exact fun hlt => hxy ((hless x y).mpr hlt)
      rw [List.pairwise_cons]
      refine ⟨?_, List.pairwise_cons.mpr h⟩
      intro z hz
      rcases List.mem_cons.mp hz with hzy | hzr
      · rw [hzy]
        exact hyx
      · exact le_trans (h.1 z hzr) hyx

theorem foldl_sinkLeft_descending (less : α → α → Bool) (key : α → κ)
    (hless : ∀ a b, less a b = true ↔ key a < key b) :
    ∀ (data acc : List α), acc.Pairwise (fun a b => key b ≤ key a) →
      (data.foldl (fun sortedRev x => sinkLeft less x sortedRev) acc).Pairwise
        (fun a b => key b ≤ key a)
  | [], _, h => h
  | x :: rest, acc, h => by
    simp only [List.foldl_cons]
    exact foldl_sinkLeft_descending less key hless rest _
      (sinkLeft_descending less key hless x acc h)

/-- The output of `sortSlice` is ascending in the key of the comparator. -/
theorem sortSlice_sorted (less : α → α → Bool) (key : α → κ)
    (hless : ∀ a b, less a b = true ↔ key a < key b) (data : List α) :
    (sortSlice less data).Pairwise (fun a b => key a ≤ key b) := by
  unfold sortSlice
  rw [List.pairwise_reverse]
  exact foldl_sinkLeft_descending less key hless data [] List.Pairwise.nil

/-- When the key determines the record, the sorted permutation is unique: any
list that is a permutation of `data` and ascending in the key is the list
`sortSlice` returns, whatever algorithm produced it. -/
theorem sortSlice_unique (less : α → α → Bool) (key : α → κ)
    (hless : ∀ a b, less a b = true ↔ key a < key b) (hinj : Function.Injective key)
    (data out : List α) (hperm : out.Perm data)
    (hsorted : out.Pairwise (fun a b => key a ≤ key b)) :
    out = sortSlice less data := by
  refine List.Perm.eq_of_sorted ?_ hsorted (sortSlice_sorted less key hless data)
    (hperm.trans (sortSlice_perm less data).symm)
  intro a b _ _ hab hba
  exact hinj (le_antisymm hab hba)

end SortSlice

end Collector

namespace Collector

/-! ## Aggregation and filter -/

theorem aggregate_foldl {α : Type} (Unmarshal : String → List α × Option JsonError) :
    ∀ (items : List String) (acc : List α),
      items.foldl (fun all i => all ++ (Unmarshal i).1) acc =
        acc ++ (items.map (fun i => (Unmarshal i).1)).flatten
  | [], acc => by simp
  | i :: rest, acc => by
    simp only [List.foldl_cons, List.map_cons, List.flatten_cons]
    rw [aggregate_foldl Unmarshal rest, List.append_assoc]

theorem aggregate_eq_flatten {α : Type} (Unmarshal : String → List α × Option JsonError)
    (items : List String) :
    aggregate Unmarshal items = (items.map (fun i => (Unmarshal i).1)).flatten := by
  unfold aggregate
  rw [aggregate_foldl]
  simp

theorem trimThreads_foldl :
    ∀ (allProcesses acc : List Process),
      allProcesses.foldl
          (fun allProcessesTrimmed i =>
            if i.Tgid == i.Pid then allProcessesTrimmed ++ [i] else allProcessesTrimmed) acc =
        acc ++ allProcesses.filter (fun p => decide (p.Tgid = p.Pid))
  | [], acc => by simp
  | p :: rest, acc => by
    simp only [List.foldl_cons]
    rw [trimThreads_foldl rest]
    by_cases h : p.Tgid = p.Pid
    · simp [h, List.filter_cons]
    · simp [h, List.filter_cons]

theorem trimThreads_eq_filter (allProcesses : List Process) :
    trimThreads allProcesses = allProcesses.filter (fun p => decide (p.Tgid = p.Pid)) := by
  unfold trimThreads
  rw [trimThreads_foldl]
  simp

theorem filterThreads_perm (threads : Bool) {l1 l2 : List Process} (h : l1.Perm l2) :
    (filterThreads threads l1).Perm (filterThreads threads l2) := by
  cases threads
  · simp only [filterThreads, Bool.not_false, if_true, trimThreads_eq_filter]
    exact h.filter _
  · simpa [filterThreads] using h

/-- C1. With the threads flag false the filter returns exactly the records
whose tgid equals pid, in their original order and unchanged (the sublist
selected by the predicate `Tgid = Pid`); with the flag true it returns its
input. -/
theorem C1_filter_correct (allProcesses : List Process) :
    filterThreads false allProcesses =
        allProcesses.filter (fun p => decide (p.Tgid = p.Pid)) ∧
      filterThreads true allProcesses = allProcesses := by
  constructor
  · simp only [filterThreads, Bool.not_false, if_true]
    exact trimThreads_eq_filter allProcesses
  · simp [filterThreads]

/-! ## Comparators and the sorted output -/

/-- C2. The process comparator is the strict lexicographic order of the key
tuple (namespace, pod, container, comm, tgid, pid), integers in numeric order
and strings in the string order, which is the byte-wise order of their UTF-8
encodings; and in the sorted slice the key at a position is at most the key at
any later position. -/
theorem C2_process_comparator_lexicographic (data : List Process) :
    (∀ a b : Process, processLess a b = true ↔ processKey a < processKey b) ∧
      (∀ s t : String, (s < t ↔ strLt s t = true) ∧
        strLt s t = bytesLt (utf8Bytes s.data) (utf8Bytes t.data)) ∧
      ∀ (i j : Nat) (_ : i < j) (hj : j < (sortSlice processLess data).length),
        processKey ((sortSlice processLess data).get ⟨i, by omega⟩) ≤
          processKey ((sortSlice processLess data).get ⟨j, hj⟩) := by
  refine ⟨processLess_iff, fun s t => ⟨(strLt_iff s t).symm, strLt_eq_bytewise s t⟩, ?_⟩
  intro i j hij hj
  have hs := sortSlice_sorted processLess processKey processLess_iff data
  rw [List.pairwise_iff_get] at hs
  exact hs ⟨i, by omega⟩ ⟨j, hj⟩ hij

/-- C3. The socket comparator is the strict lexicographic order of the key
tuple (node, namespace, pod, protocol, status, local address, remote address,
local port, remote port).  Records that agree on node, namespace, pod and
protocol and differ in status are ordered by status alone, whatever their
addresses and ports, so a record with status ESTABLISHED is sorted before one
with status LISTEN; records that agree on all nine keys are ordered neither
way. -/
theorem C3_socket_comparator_lexicographic :
    (∀ a b : SocketEvent, socketLess a b = true ↔ socketKey a < socketKey b) ∧
      (∀ a b : SocketEvent, a.Event.Node = b.Event.Node →
        a.Event.Namespace = b.Event.Namespace → a.Event.Pod = b.Event.Pod →
        a.Protocol = b.Protocol → a.Status ≠ b.Status →
        socketLess a b = strLt a.Status b.Status) ∧
      (∀ a b : SocketEvent, a.Event.Node = b.Event.Node →
        a.Event.Namespace = b.Event.Namespace → a.Event.Pod = b.Event.Pod →
        a.Protocol = b.Protocol → a.Status = "ESTABLISHED" → b.Status = "LISTEN" →
        socketLess a b = true ∧ socketLess b a = false ∧
          sortSlice socketLess [b, a] = [a, b] ∧ sortSlice socketLess [a, b] = [a, b]) ∧
      ∀ a b : SocketEvent, socketKey a = socketKey b →
        socketLess a b = false ∧ socketLess b a = false := by
  have hstatus : ∀ a b : SocketEvent, a.Event.Node = b.Event.Node →
      a.Event.Namespace = b.Event.Namespace → a.Event.Pod = b.Event.Pod →
      a.Protocol = b.Protocol → a.Status ≠ b.Status →
      socketLess a b = strLt a.Status b.Status := by
    intro a b h1 h2 h3 h4 h5
    simp [socketLess, h1, h2, h3, h4, h5]
  refine ⟨socketLess_iff, hstatus, ?_, ?_⟩
  · intro a b h1 h2 h3 h4 h5 h6
    have hab : socketLess a b = true := by
      rw [hstatus a b h1 h2 h3 h4 (by rw [h5, h6]; decide), h5, h6]
      decide
    have hba : socketLess b a = false := by
      rw [hstatus b a h1.symm h2.symm h3.symm h4.symm (by rw [h5, h6]; decide), h5, h6]
      decide
    refine ⟨hab, hba, ?_, ?_⟩
    · simp [sortSlice, sinkLeft, hab]
    · simp [sortSlice, sinkLeft, hba]
  · intro a b h
    have hlt : ∀ x y : SocketEvent, socketKey x = socketKey y → socketLess x y = false := by
      intro x y hxy
      rw [← Bool.not_eq_true, socketLess_iff, hxy]
      exact lt_irrefl _
    exact ⟨hlt a b h, hlt b a h.symm⟩

/-- Scenario B, from C3: two socket records that differ only in status; the
one with status ESTABLISHED is sorted before the one with status LISTEN. -/
theorem C3_socket_comparator_lexicographic_witness :
    sortSlice socketLess
        [(⟨⟨"node1", "default", "web"⟩, "TCP", "10.0.0.1", 80, "0.0.0.0", 0, "LISTEN"⟩ :
            SocketEvent),
          ⟨⟨"node1", "default", "web"⟩, "TCP", "10.0.0.1", 80, "0.0.0.0", 0, "ESTABLISHED"⟩] =
      [⟨⟨"node1", "default", "web"⟩, "TCP", "10.0.0.1", 80, "0.0.0.0", 0, "ESTABLISHED"⟩,
        ⟨⟨"node1", "default", "web"⟩, "TCP", "10.0.0.1", 80, "0.0.0.0", 0, "LISTEN"⟩] :=
  (C3_socket_comparator_lexicographic.2.2.1
    ⟨⟨"node1", "default", "web"⟩, "TCP", "10.0.0.1", 80, "0.0.0.0", 0, "ESTABLISHED"⟩
    ⟨⟨"node1", "default", "web"⟩, "TCP", "10.0.0.1", 80, "0.0.0.0", 0, "LISTEN"⟩
    rfl rfl rfl rfl rfl rfl).2.2.1

/-- C4. In both pipelines the aggregate is the concatenation, in the order of
the items, of the record sequences the decoder left for each item, nothing
merged or dropped; its length is the sum of the lengths of those sequences. -/
theorem C4_aggregate_is_concatenation
    (UnmarshalProcess : String → List Process × Option JsonError)
    (UnmarshalSocket : String → List SocketEvent × Option JsonError) (items : List String) :
    (aggregate UnmarshalProcess items =
          (items.map (fun i => (UnmarshalProcess i).1)).flatten ∧
        (aggregate UnmarshalProcess items).length =
          (items.map (fun i => (UnmarshalProcess i).1.length)).sum) ∧
      (aggregate UnmarshalSocket items =
          (items.map (fun i => (UnmarshalSocket i).1)).flatten ∧
        (aggregate UnmarshalSocket items).length =
          (items.map (fun i => (UnmarshalSocket i).1.length)).sum) := by
  refine ⟨⟨aggregate_eq_flatten _ _, ?_⟩, ⟨aggregate_eq_flatten _ _, ?_⟩⟩
  · rw [aggregate_eq_flatten, List.length_flatten, List.map_map]
    rfl
  · rw [aggregate_eq_flatten, List.length_flatten, List.map_map]
    rfl

/-- C8. Sorting is idempotent in both pipelines: sorting the sorted slice again
returns it unchanged. -/
theorem C8_sort_idempotent (processes : List Process) (sockets : List SocketEvent) :
    sortSlice processLess (sortSlice processLess processes) = sortSlice processLess processes ∧
      sortSlice socketLess (sortSlice socketLess sockets) = sortSlice socketLess sockets := by
  constructor
  · exact (sortSlice_unique processLess processKey processLess_iff processKey_injective _ _
      (List.Perm.refl _) (sortSlice_sorted processLess processKey processLess_iff _)).symm
  · exact (sortSlice_unique socketLess socketKey socketLess_iff socketKey_injective _ _
      (List.Perm.refl _) (sortSlice_sorted socketLess socketKey socketLess_iff _)).symm

/-- C9. The key tuple determines a process record, and therefore two lists of
process records that are permutations of each other are filtered and sorted to
the same sequence, whatever the threads flag. -/
theorem C9_process_order_irrelevant (threads : Bool) (l1 l2 : List Process)
    (h : l1.Perm l2) :
    Function.Injective processKey ∧
      sortSlice processLess (filterThreads threads l1) =
        sortSlice processLess (filterThreads threads l2) := by
  refine ⟨processKey_injective, ?_⟩
  exact sortSlice_unique processLess processKey processLess_iff processKey_injective _ _
    ((sortSlice_perm _ _).trans (filterThreads_perm threads h))
    (sortSlice_sorted processLess processKey processLess_iff _)

/-- Witness of C9 on two records given in both orders. -/
theorem C9_process_order_irrelevant_witness :
    [(⟨1, 1, "init", "kube-system", "p1", "c1"⟩ : Process),
        ⟨2, 5, "sleep", "default", "p2", "c2"⟩].Perm
        [⟨2, 5, "sleep", "default", "p2", "c2"⟩, ⟨1, 1, "init", "kube-system", "p1", "c1"⟩] ∧
      Function.Injective processKey ∧
      sortSlice processLess (filterThreads true
          [⟨1, 1, "init", "kube-system", "p1", "c1"⟩, ⟨2, 5, "sleep", "default", "p2", "c2"⟩]) =
        sortSlice processLess (filterThreads true
          [⟨2, 5, "sleep", "default", "p2", "c2"⟩, ⟨1, 1, "init", "kube-system", "p1", "c1"⟩]) :=
  ⟨List.Perm.swap _ _ _, C9_process_order_irrelevant true _ _ (List.Perm.swap _ _ _)⟩

/-! ## The process table -/

theorem foldl_append_rows {α : Type} (row : α → String) :
    ∀ (records : List α) (w : String),
      records.foldl (fun w r => w ++ row r) w =
        w ++ records.foldr (fun r text => row r ++ text) ""
  | [], w => by simp
  | r :: rest, w => by
    simp only [List.foldl_cons, List.foldr_cons]
    rw [foldl_append_rows row rest, String.append_assoc]

theorem foldr_rows_map {α : Type} (cells : α → List String) :
    ∀ records : List α,
      (records.map cells).foldr (fun row text => tabTerminatedRow row ++ text) "" =
        records.foldr (fun r text => tabTerminatedRow (cells r) ++ text) ""
  | [] => rfl
  | r :: rest => by
    simp only [List.map_cons, List.foldr_cons]
    rw [foldr_rows_map cells rest]

theorem tab_newline : "\t" ++ "\n" = "\t\n" := by decide

/-- C10. The text written for the process table is the header row followed by
one row per record, in list order, every cell terminated by a tab: without
threads the cells NAMESPACE, POD, CONTAINER, COMM, PID over namespace, pod,
container, comm and the decimal pid; with threads the cells NAMESPACE, POD,
CONTAINER, COMM, TGID, PID over namespace, pod, container, comm, the decimal
tgid and the decimal pid. -/
theorem C10_process_table_layout (allProcesses : List Process) :
    processTable false allProcesses =
        tabTerminatedTable ["NAMESPACE", "POD", "CONTAINER", "COMM", "PID"]
          (allProcesses.map (fun p =>
            [p.KubernetesNamespace, p.KubernetesPod, p.KubernetesContainer, p.Comm,
              formatD p.Pid])) ∧
      processTable true allProcesses =
        tabTerminatedTable ["NAMESPACE", "POD", "CONTAINER", "COMM", "TGID", "PID"]
          (allProcesses.map (fun p =>
            [p.KubernetesNamespace, p.KubernetesPod, p.KubernetesContainer, p.Comm,
              formatD p.Tgid, formatD p.Pid])) := by
  constructor
  · simp only [processTable, Bool.false_eq_true, if_false, tabTerminatedTable]
    rw [foldl_append_rows, foldr_rows_map]
    have hheader : "NAMESPACE\tPOD\tCONTAINER\tCOMM\tPID\t" ++ "\n" =
        tabTerminatedRow ["NAMESPACE", "POD", "CONTAINER", "COMM", "PID"] := by decide
    rw [hheader]
    congr 1
    refine congrArg (fun f => List.foldr f "" allProcesses) ?_
    funext p text
    simp only [tabTerminatedRow, List.foldr_cons, List.foldr_nil, String.append_assoc,
      tab_newline]
  · simp only [processTable, if_true, tabTerminatedTable]
    rw [foldl_append_rows, foldr_rows_map]
    have hheader : "NAMESPACE\tPOD\tCONTAINER\tCOMM\tTGID\tPID\t" ++ "\n" =
        tabTerminatedRow ["NAMESPACE", "POD", "CONTAINER", "COMM", "TGID", "PID"] := by decide
    rw [hheader]
    congr 1
    refine congrArg (fun f => List.foldr f "" allProcesses) ?_
    funext p text
    simp only [tabTerminatedRow, List.foldr_cons, List.foldr_nil, String.append_assoc,
      tab_newline]

/-! ## Scenario A -/

set_option maxRecDepth 100000 in
theorem scenarioA_node1_decoded :
    jsonUnmarshalProcesses scenarioA_node1 =
      ([⟨1, 1, "init", "kube-system", "p1", "c1"⟩], none) := by decide

set_option maxRecDepth 100000 in
theorem scenarioA_node2_decoded :
    jsonUnmarshalProcesses scenarioA_node2 =
      ([⟨2, 5, "sleep", "default", "p2", "c2"⟩], none) := by decide

set_option maxRecDepth 100000 in
/-- C5, as stated, fails: on the two fragments of scenario A and without
threads, the renderer does not receive two records and the text written is not
the table with the default/p2 row before the kube-system/p1 row. -/
theorem C5_two_rows_counterexample :
    (processRecords jsonUnmarshalProcesses false [scenarioA_node1, scenarioA_node2]).length ≠ 2 ∧
      processTable false
          (processRecords jsonUnmarshalProcesses false [scenarioA_node1, scenarioA_node2]) ≠
        tabTerminatedTable ["NAMESPACE", "POD", "CONTAINER", "COMM", "PID"]
          [["default", "p2", "c2", "sleep", "5"], ["kube-system", "p1", "c1", "init", "1"]] := by
  decide

set_option maxRecDepth 100000 in
/-- C5, amended.  On the two fragments of scenario A: without threads the
record with tgid 2 and pid 5 is dropped by the filter and the table has exactly
one data row, the kube-system/p1 row; with threads the table has exactly two
data rows, the default/p2 row before the kube-system/p1 row. -/
theorem C5_scenarioA_rows :
    processRecords jsonUnmarshalProcesses false [scenarioA_node1, scenarioA_node2] =
        [⟨1, 1, "init", "kube-system", "p1", "c1"⟩] ∧
      processTable false
          (processRecords jsonUnmarshalProcesses false [scenarioA_node1, scenarioA_node2]) =
        tabTerminatedTable ["NAMESPACE", "POD", "CONTAINER", "COMM", "PID"]
          [["kube-system", "p1", "c1", "init", "1"]] ∧
      processRecords jsonUnmarshalProcesses true [scenarioA_node1, scenarioA_node2] =
        [⟨2, 5, "sleep", "default", "p2", "c2"⟩, ⟨1, 1, "init", "kube-system", "p1", "c1"⟩] ∧
      processTable true
          (processRecords jsonUnmarshalProcesses true [scenarioA_node1, scenarioA_node2]) =
        tabTerminatedTable ["NAMESPACE", "POD", "CONTAINER", "COMM", "TGID", "PID"]
          [["default", "p2", "c2", "sleep", "2", "5"],
            ["kube-system", "p1", "c1", "init", "1", "1"]] := by
  decide

/-! ## Decode failures -/

theorem aggregate_append {α : Type} (Unmarshal : String → List α × Option JsonError)
    (xs ys : List String) :
    aggregate Unmarshal (xs ++ ys) = aggregate Unmarshal xs ++ aggregate Unmarshal ys := by
  simp [aggregate_eq_flatten]

theorem aggregate_cons {α : Type} (Unmarshal : String → List α × Option JsonError)
    (x : String) (xs : List String) :
    aggregate Unmarshal (x :: xs) = (Unmarshal x).1 ++ aggregate Unmarshal xs := by
  simp [aggregate_eq_flatten]

/-- Replacing an item whose decoding left the slice empty by another such item
does not change the aggregate. -/
theorem aggregate_replace_empty {α : Type} (Unmarshal : String → List α × Option JsonError)
    (before after : List String) (x y : String)
    (hx : (Unmarshal x).1 = []) (hy : (Unmarshal y).1 = []) :
    aggregate Unmarshal (before ++ x :: after) = aggregate Unmarshal (before ++ y :: after) := by
  simp [aggregate_append, aggregate_cons, hx, hy]

set_option maxRecDepth 100000 in
theorem malformedFragment_decoded :
    jsonUnmarshalProcesses malformedFragment = ([], some JsonError.SyntaxError) := by decide

set_option maxRecDepth 100000 in
theorem emptyArray_decoded : jsonUnmarshalProcesses "[]" = ([], none) := by decide

set_option maxRecDepth 100000 in
theorem mistypedFragment_decoded :
    jsonUnmarshalProcesses mistypedFragment =
      ([⟨1, 1, "init", "", "p1", "c1"⟩], some JsonError.UnmarshalTypeError) := by decide

/-- C6, the code at a failing input.  The fragment `not json` fails to decode
with a syntax error, yet whatever the other fragments, the output mode, the
threads flag, the marshaller and the tabwriter, the run observes exactly what
it observes when that fragment is the valid empty array `[]`: same standard
output, same (absent) log message. -/
theorem C6_decode_failure_is_silent (MarshalIndent : List Process → Except String String)
    (tabwriter : String → String) (outputMode : OutputMode) (threads : Bool)
    (before after : List String) :
    (jsonUnmarshalProcesses malformedFragment).2 = some JsonError.SyntaxError ∧
      (jsonUnmarshalProcesses "[]").2 = none ∧
      processCollectorCmdRun ⟨jsonUnmarshalProcesses, MarshalIndent, tabwriter⟩ outputMode threads
          (before ++ malformedFragment :: after) =
        processCollectorCmdRun ⟨jsonUnmarshalProcesses, MarshalIndent, tabwriter⟩ outputMode
          threads (before ++ "[]" :: after) := by
  refine ⟨by rw [malformedFragment_decoded], by rw [emptyArray_decoded], ?_⟩
  have h := aggregate_replace_empty jsonUnmarshalProcesses before after malformedFragment "[]"
    (by rw [malformedFragment_decoded]) (by rw [emptyArray_decoded])
  simp only [processCollectorCmdRun, processRecords, h]

set_option maxRecDepth 100000 in
/-- C7, the code at a failing input.  The fragment that gives `namespace` as a
number fails to decode with a type error, yet the record it half-filled reaches
the renderer and is written as a table row, while the same list with the
failing fragment removed yields no record and only the header. -/
theorem C7_failing_fragment_contributes :
    (jsonUnmarshalProcesses mistypedFragment).2 = some JsonError.UnmarshalTypeError ∧
      processRecords jsonUnmarshalProcesses false [mistypedFragment] =
        [⟨1, 1, "init", "", "p1", "c1"⟩] ∧
      processRecords jsonUnmarshalProcesses false [] = [] ∧
      processTable false (processRecords jsonUnmarshalProcesses false [mistypedFragment]) =
        tabTerminatedTable ["NAMESPACE", "POD", "CONTAINER", "COMM", "PID"]
          [["", "p1", "c1", "init", "1"]] ∧
      processTable false (processRecords jsonUnmarshalProcesses false []) =
        tabTerminatedTable ["NAMESPACE", "POD", "CONTAINER", "COMM", "PID"] [] := by
  decide

/-! ## Supporting facts on decode failures and node order -/

/-- No item stops the loop, and an item whose decoding left the slice empty
(as a fragment that is not JSON does) contributes nothing: the aggregate is the
aggregate of the items that left a record. -/
theorem aggregate_filter_nonempty {α : Type}
    (Unmarshal : String → List α × Option JsonError) :
    ∀ items : List String,
      aggregate Unmarshal (items.filter (fun i => !(Unmarshal i).1.isEmpty)) =
        aggregate Unmarshal items
  | [] => rfl
  | i :: rest => by
    rw [aggregate_cons, List.filter_cons]
    cases h : (Unmarshal i).1 with
    | nil => simpa using aggregate_filter_nonempty Unmarshal rest
    | cons r rs =>
      simp only [List.isEmpty_cons, Bool.not_false, if_true]
      rw [aggregate_cons, h, aggregate_filter_nonempty Unmarshal rest]

/-- The order of the nodes is irrelevant to the records handed to the process
renderer. -/
theorem processRecords_perm_items (Unmarshal : String → List Process × Option JsonError)
    (threads : Bool) {items1 items2 : List String} (h : items1.Perm items2) :
    processRecords Unmarshal threads items1 = processRecords Unmarshal threads items2 := by
  have hagg : (aggregate Unmarshal items1).Perm (aggregate Unmarshal items2) := by
    induction h with
    | nil => exact List.Perm.refl _
    | cons x _ ih =>
      rw [aggregate_cons, aggregate_cons]
      exact ih.append_left _
    | swap x y l =>
      simp only [aggregate_cons, ← List.append_assoc]
      exact List.Perm.append_right _ List.perm_append_comm
    | trans _ _ ih1 ih2 => exact ih1.trans ih2
  unfold processRecords
  exact sortSlice_unique processLess processKey processLess_iff processKey_injective _ _
    ((sortSlice_perm _ _).trans (filterThreads_perm threads hagg))
    (sortSlice_sorted processLess processKey processLess_iff _)

/-! ## The socket table -/

theorem foldr_separated_rows_map {α : Type} (cells : α → List String) :
    ∀ records : List α,
      (records.map cells).foldr (fun row text => tabSeparatedRow row ++ text) "" =
        records.foldr (fun r text => tabSeparatedRow (cells r) ++ text) ""
  | [] => rfl
  | r :: rest => by
    simp only [List.map_cons, List.foldr_cons]
    rw [foldr_separated_rows_map cells rest]

/-- C11. The text written for the socket table is the header row NODE,
NAMESPACE, POD, PROTOCOL, LOCAL, REMOTE, STATUS followed by one row per record,
in list order, whose tab-separated cells are node, namespace, pod, protocol,
local address then a colon then the decimal local port, remote address then a
colon then the decimal remote port, and status. -/
theorem C11_socket_table_layout (allSockets : List SocketEvent) :
    socketTable allSockets =
      tabSeparatedTable ["NODE", "NAMESPACE", "POD", "PROTOCOL", "LOCAL", "REMOTE", "STATUS"]
        (allSockets.map (fun s =>
          [s.Event.Node, s.Event.Namespace, s.Event.Pod, s.Protocol,
            s.LocalAddress ++ ":" ++ Nat.repr s.LocalPort,
            s.RemoteAddress ++ ":" ++ Nat.repr s.RemotePort, s.Status])) := by
  simp only [socketTable, tabSeparatedTable]
  rw [foldl_append_rows, foldr_separated_rows_map]
  have hheader : "NODE\tNAMESPACE\tPOD\tPROTOCOL\tLOCAL\tREMOTE\tSTATUS" ++ "\n" =
      tabSeparatedRow ["NODE", "NAMESPACE", "POD", "PROTOCOL", "LOCAL", "REMOTE", "STATUS"] := by
    decide
  rw [hheader]
  refine congrArg (HAppend.hAppend _) ?_
  refine congrArg (fun f => List.foldr f "" allSockets) ?_
  funext s text
  simp only [tabSeparatedRow, String.append_assoc]

/-! ## The comparator as an order, and what the sort keeps -/

/-- C14. The process comparator is a strict total order on process records: it
is irreflexive, transitive and asymmetric, and two records that differ in one
of their six fields are ordered exactly one way. -/
theorem C14_process_less_strict_total_order :
    (∀ a : Process, processLess a a = false) ∧
      (∀ a b c : Process, processLess a b = true → processLess b c = true →
        processLess a c = true) ∧
      (∀ a b : Process, ¬(processLess a b = true ∧ processLess b a = true)) ∧
      ∀ a b : Process,
        (a.Tgid ≠ b.Tgid ∨ a.Pid ≠ b.Pid ∨ a.Comm ≠ b.Comm ∨
          a.KubernetesNamespace ≠ b.KubernetesNamespace ∨
          a.KubernetesPod ≠ b.KubernetesPod ∨
          a.KubernetesContainer ≠ b.KubernetesContainer) →
        (processLess a b = true ∧ processLess b a = false) ∨
          (processLess a b = false ∧ processLess b a = true) := by
  refine ⟨?_, ?_, ?_, ?_⟩
  · intro a
    rw [← Bool.not_eq_true, processLess_iff]
    exact lt_irrefl _
  · intro a b c hab hbc
    rw [processLess_iff] at hab hbc ⊢
    exact lt_trans hab hbc
  · intro a b h
    rw [processLess_iff, processLess_iff] at h
    exact lt_asymm h.1 h.2
  · intro a b hne
    have hab : a ≠ b := by
      intro h
      subst h
      simp at hne
    have hkey : processKey a ≠ processKey b := fun h => hab (processKey_injective h)
    rcases lt_or_gt_of_ne hkey with hlt | hgt
    · left
      refine ⟨(processLess_iff a b).mpr hlt, ?_⟩
      rw [← Bool.not_eq_true, processLess_iff]
      exact lt_asymm hlt
    · right
      refine ⟨?_, (processLess_iff b a).mpr hgt⟩
      rw [← Bool.not_eq_true, processLess_iff]
      exact lt_asymm hgt

/-- Witness of C14 on the two records of scenario A, which differ in every
field: the default/p2 record is below the kube-system/p1 record and not the
other way round. -/
theorem C14_process_less_strict_total_order_witness :
    (processLess ⟨2, 5, "sleep", "default", "p2", "c2"⟩
          ⟨1, 1, "init", "kube-system", "p1", "c1"⟩ = true ∧
        processLess ⟨1, 1, "init", "kube-system", "p1", "c1"⟩
          ⟨2, 5, "sleep", "default", "p2", "c2"⟩ = false) ∨
      (processLess ⟨2, 5, "sleep", "default", "p2", "c2"⟩
          ⟨1, 1, "init", "kube-system", "p1", "c1"⟩ = false ∧
        processLess ⟨1, 1, "init", "kube-system", "p1", "c1"⟩
          ⟨2, 5, "sleep", "default", "p2", "c2"⟩ = true) :=
  C14_process_less_strict_total_order.2.2.2 ⟨2, 5, "sleep", "default", "p2", "c2"⟩
    ⟨1, 1, "init", "kube-system", "p1", "c1"⟩ (Or.inl (by decide))

/-- C15. In both pipelines the sorted sequence handed to the renderer is a
permutation of the sequence that entered the sort (the filtered aggregate for
processes, the aggregate for sockets): every record occurs in it exactly as
often as before the sort. -/
theorem C15_sort_is_permutation
    (UnmarshalProcess : String → List Process × Option JsonError)
    (UnmarshalSocket : String → List SocketEvent × Option JsonError)
    (threads : Bool) (items : List String) :
    ((processRecords UnmarshalProcess threads items).Perm
          (filterThreads threads (aggregate UnmarshalProcess items)) ∧
        ∀ p : Process, (processRecords UnmarshalProcess threads items).count p =
          (filterThreads threads (aggregate UnmarshalProcess items)).count p) ∧
      ((socketRecords UnmarshalSocket items).Perm (aggregate UnmarshalSocket items) ∧
        ∀ s : SocketEvent, (socketRecords UnmarshalSocket items).count s =
          (aggregate UnmarshalSocket items).count s) := by
  have hp := sortSlice_perm processLess (filterThreads threads (aggregate UnmarshalProcess items))
  have hs := sortSlice_perm socketLess (aggregate UnmarshalSocket items)
  exact ⟨⟨hp, fun p => hp.count_eq p⟩, ⟨hs, fun s => hs.count_eq s⟩⟩

/-- The six-column table, as a table of tab-terminated cells. -/
theorem processTable_threads_eq (allProcesses : List Process) :
    processTable true allProcesses =
      tabTerminatedTable ["NAMESPACE", "POD", "CONTAINER", "COMM", "TGID", "PID"]
        (allProcesses.map (fun p =>
          [p.KubernetesNamespace, p.KubernetesPod, p.KubernetesContainer, p.Comm,
            formatD p.Tgid, formatD p.Pid])) := by
  simp only [processTable, if_true, tabTerminatedTable]
  rw [foldl_append_rows, foldr_rows_map]
  have hheader : "NAMESPACE\tPOD\tCONTAINER\tCOMM\tTGID\tPID\t" ++ "\n" =
      tabTerminatedRow ["NAMESPACE", "POD", "CONTAINER", "COMM", "TGID", "PID"] := by decide
  rw [hheader]
  congr 1
  refine congrArg (fun f => List.foldr f "" allProcesses) ?_
  funext p text
  simp only [tabTerminatedRow, List.foldr_cons, List.foldr_nil, String.append_assoc,
    tab_newline]

/-- C16. Without threads every record that enters the sort, and every record
handed to the renderer, has tgid equal to pid, whatever the fragments and the
decoder; so the six-column row of such a record repeats the cell of the PID
column in the TGID column, and the five-column table leaves nothing out. -/
theorem C16_without_threads_tgid_is_pid
    (Unmarshal : String → List Process × Option JsonError) (items : List String) :
    (∀ p ∈ filterThreads false (aggregate Unmarshal items), p.Tgid = p.Pid) ∧
      (∀ p ∈ processRecords Unmarshal false items, p.Tgid = p.Pid) ∧
      processTable true (processRecords Unmarshal false items) =
        tabTerminatedTable ["NAMESPACE", "POD", "CONTAINER", "COMM", "TGID", "PID"]
          ((processRecords Unmarshal false items).map (fun p =>
            [p.KubernetesNamespace, p.KubernetesPod, p.KubernetesContainer, p.Comm,
              formatD p.Pid, formatD p.Pid])) := by
  have hfilter : ∀ p ∈ filterThreads false (aggregate Unmarshal items), p.Tgid = p.Pid := by
    intro p hp
    simp only [filterThreads, Bool.not_false, if_true, trimThreads_eq_filter] at hp
    simpa using (List.mem_filter.mp hp).2
  have hrecords : ∀ p ∈ processRecords Unmarshal false items, p.Tgid = p.Pid := by
    intro p hp
    exact hfilter p ((sortSlice_perm _ _).mem_iff.mp hp)
  refine ⟨hfilter, hrecords, ?_⟩
  rw [processTable_threads_eq]
  congr 1
  refine List.map_congr_left ?_
  intro p hp
  rw [hrecords p hp]

/-! ## The structured document, decoded back -/

theorem digitChar_facts : ∀ k, k < 10 →
    (Nat.digitChar k).isDigit = true ∧ (Nat.digitChar k).toNat - '0'.toNat = k ∧
      (k ≠ 0 → Nat.digitChar k ≠ '0') ∧ Nat.digitChar k ≠ '-' := by
  decide

/-- The shape of the digits core writes for a number. -/
theorem toDigitsCore_shape :
    ∀ (fuel n : Nat) (ds : List Char), n < fuel →
      ∃ pre : List Char, Nat.toDigitsCore 10 fuel n ds = pre ++ ds ∧
        (∀ c ∈ pre, c.isDigit = true) ∧
        (∃ d tl, pre = d :: tl ∧ d ≠ '-' ∧ (n ≠ 0 → d ≠ '0')) ∧
        ∀ a : Nat, pre.foldl (fun m c => 10 * m + (c.toNat - '0'.toNat)) a =
          a * 10 ^ pre.length + n
  | 0, _, _, h => absurd h (Nat.not_lt_zero _)
  | fuel + 1, n, ds, h => by
    have hd := digitChar_facts (n % 10) (Nat.mod_lt _ (by decide))
    unfold Nat.toDigitsCore
    by_cases h0 : n / 10 = 0
    · simp only [h0, if_true]
      have hn : n % 10 = n := Nat.mod_eq_of_lt (by omega)
      refine ⟨[Nat.digitChar (n % 10)], rfl, ?_, ⟨_, _, rfl, hd.2.2.2, ?_⟩, ?_⟩
      · intro c hc
        rw [List.mem_singleton.mp hc]
        exact hd.1
      · intro hne
        exact hd.2.2.1 (by omega)
      · intro a
        simp only [List.foldl_cons, List.foldl_nil, hd.2.1, List.length_singleton, pow_one]
        omega
    · simp only [h0, if_false]
      obtain ⟨pre, hpre, hall, ⟨d, tl, hdt, hminus, hzero⟩, hval⟩ :=
        toDigitsCore_shape fuel (n / 10) (Nat.digitChar (n % 10) :: ds) (by omega)
      refine ⟨pre ++ [Nat.digitChar (n % 10)], ?_, ?_, ⟨d, tl ++ [Nat.digitChar (n % 10)], ?_,
        hminus, fun _ => hzero h0⟩, ?_⟩
      · rw [hpre]
        simp
      · intro c hc
        rcases List.mem_append.mp hc with h1 | h1
        · exact hall c h1
        · rw [List.mem_singleton.mp h1]
          exact hd.1
      · rw [hdt]
        rfl
      · intro a
        rw [List.foldl_append, hval a]
        simp only [List.foldl_cons, List.foldl_nil, hd.2.1, List.length_append,
          List.length_singleton, pow_succ]
        have := Nat.div_add_mod n 10
        have e : 10 * (a * 10 ^ pre.length + n / 10) = a * (10 ^ pre.length * 10) + 10 * (n / 10) := by ring
        omega
theorem spanDigits_append (pre : List Char) (c : Char) (rest : List Char)
    (hall : ∀ d ∈ pre, d.isDigit = true) (hc : c.isDigit = false) :
    spanDigits (pre ++ c :: rest) = (pre, c :: rest) := by
  induction pre with
  | nil => simp [spanDigits, hc]
  | cons d tl ih =>
    have hd : d.isDigit = true := hall d (List.mem_cons_self _ _)
    have htl := ih (fun x hx => hall x (List.mem_cons_of_mem _ hx))
    simp [spanDigits, hd, htl]

theorem parseValue_number (fuel : Nat) (first : Char) (more : List Char) (c : Char)
    (rest : List Char)
    (h1 : first ≠ '{') (h2 : first ≠ '[') (h3 : first ≠ '"') (h4 : first ≠ 't')
    (h5 : first ≠ 'f') (h6 : first ≠ 'n')
    (hscan : scanNumber (first :: more ++ c :: rest) = some (first :: more, c :: rest)) :
    parseValue (fuel + 1) (first :: more ++ c :: rest) =
      some (JSON.number (first :: more), c :: rest) := by
  simp only [List.cons_append] at hscan ⊢
  unfold parseValue
  simp only [h1, h2, h3, if_false]
  split
  · rename_i heq
    simp only [List.cons.injEq] at heq
    exact absurd heq.1 h4
  · rename_i heq
    simp only [List.cons.injEq] at heq
    exact absurd heq.1 h5
  · rename_i heq
    simp only [List.cons.injEq] at heq
    exact absurd heq.1 h6
  · rw [hscan]

theorem formatD_isDecimal (n : Int) (hn : n ≠ 0) : IsDecimalOf (formatD n).data n := by
  obtain ⟨pre, hpre, hall, ⟨d, tl, hdt, hminus, hzero⟩, hval⟩ :=
    toDigitsCore_shape (n.natAbs + 1) n.natAbs [] (Nat.lt_succ_self _)
  have hrepr : (Nat.repr n.natAbs).data = d :: tl := by
    show Nat.toDigitsCore 10 (n.natAbs + 1) n.natAbs [] = d :: tl
    rw [hpre, hdt]
    simp
  have hnat : n.natAbs ≠ 0 := by omega
  refine ⟨d, tl, ?_, hall d (by rw [hdt]; exact List.mem_cons_self _ _), hzero hnat, hminus,
    fun c hc => hall c (by rw [hdt]; exact List.mem_cons_of_mem _ hc), ?_⟩
  · unfold formatD
    by_cases hneg : n < 0
    · simp only [hneg, if_true, String.data_append, hrepr]
    · simp only [hneg, if_false, hrepr, List.nil_append]
  · have := hval 0
    rw [hdt] at this
    unfold digitsValue
    rw [this]
    simp

theorem scanNumber_decimal (lit : List Char) (n : Int) (h : IsDecimalOf lit n) (c : Char)
    (rest : List Char) (hc : c.isDigit = false) (hdot : c ≠ '.') (he : c ≠ 'e')
    (hE : c ≠ 'E') :
    scanNumber (lit ++ c :: rest) = some (lit, c :: rest) := by
  obtain ⟨d, tl, hlit, hd, hd0, hdm, htl, _⟩ := h.shape
  have hspan := spanDigits_append tl c rest htl hc
  have hfrac : scanFraction (c :: rest) = some ([], c :: rest) := by
    simp [scanFraction, hdot]
  have hexp : scanExponent (c :: rest) = some ([], c :: rest) := by
    simp [scanExponent, he, hE]
  have hint : scanIntPart (d :: (tl ++ c :: rest)) = some (d :: tl, c :: rest) := by
    simp [scanIntPart, hd0, hd, hspan]
  by_cases hneg : n < 0
  · simp only [hneg, if_true] at hlit
    subst hlit
    simp [scanNumber, hint, hfrac, hexp]
  · simp only [hneg, if_false, List.nil_append] at hlit
    subst hlit
    simp [scanNumber, hdm, hint, hfrac, hexp]

theorem parseInt64_decimal (lit : List Char) (n : Int) (h : IsDecimalOf lit n)
    (hlo : -(2 ^ 63 : Int) ≤ n) (hhi : n < (2 ^ 63 : Int)) :
    parseInt64 lit = some n := by
  obtain ⟨d, tl, hlit, hd, hd0, hdm, htl, hval⟩ := h.shape
  have hall : (d :: tl).all Char.isDigit = true := by
    simp only [List.all_cons, hd, Bool.true_and, List.all_eq_true]
    exact htl
  have hrange : (-(2 ^ 63 : Int) ≤ n ∧ n < (2 ^ 63 : Int)) := ⟨hlo, hhi⟩
  by_cases hneg : n < 0
  · simp only [hneg, if_true] at hlit
    subst hlit
    have hn : -((digitsValue (d :: tl) : Nat) : Int) = n := by
      rw [hval]
      omega
    simp only [parseInt64, List.cons_append, List.nil_append, hall, if_true, hn, hrange,
      and_self]
  · simp only [hneg, if_false, List.nil_append] at hlit
    subst hlit
    have hn : ((digitsValue (d :: tl) : Nat) : Int) = n := by
      rw [hval]
      omega
    simp only [parseInt64]
    simp [hdm, hall, hn]
    norm_num at hlo hhi
    exact ⟨hlo, hhi⟩
theorem hexDigit_hexChar : ∀ k, k < 16 → hexDigit (hexChar k) = some k := by decide

theorem getu4_low (n : Nat) (h : n < 128) :
    getu4 '0' '0' (hexChar (n / 16)) (hexChar (n % 16)) = some n := by
  have h1 := hexDigit_hexChar (n / 16) (by omega)
  have h2 := hexDigit_hexChar (n % 16) (by omega)
  have h0 : hexDigit '0' = some 0 := by decide
  simp only [getu4, h0, h1, h2]
  congr 1
  omega

theorem scanString_escapeChar (c : Char) (fuel : Nat) (tail : List Char)
    (r : Option (List Char × List Char)) (h : scanString fuel tail = r) :
    scanString (fuel + 1) (escapeChar c ++ tail) = consChar c r := by
  subst h
  unfold escapeChar
  split_ifs with h1 h2 h3 h4 h5 h6 h7 h8
  · subst h1
    simp [scanString, unescape]
  · subst h2
    simp [scanString, unescape]
  · subst h3
    simp [scanString, unescape]
  · subst h4
    simp [scanString, unescape]
  · subst h5
    simp [scanString, unescape]
  · have hlt : c.toNat < 128 := by
      rcases h6 with h | h | h | h
      · omega
      · subst h; decide
      · subst h; decide
      · subst h; decide
    have hg := getu4_low c.toNat hlt
    have hc : Char.ofNat c.toNat = c := Char.ofNat_toNat c
    simp only [List.cons_append, List.nil_append, scanString]
    simp [hg, hc]
    omega
  · subst h7
    simp [scanString, getu4, hexDigit]
  · subst h8
    simp [scanString, getu4, hexDigit]
  · have h6a : ¬ c.toNat < 32 := fun hh => h6 (Or.inl hh)
    simp [scanString, h1, h2, h6a]

theorem scanString_escapeThenQuote :
    ∀ (cs rest : List Char) (fuel : Nat), cs.length < fuel →
      scanString fuel (escapeThenQuote cs rest) = some (cs, rest)
  | [], rest, fuel, h => by
    obtain ⟨f, rfl⟩ : ∃ f, fuel = f + 1 := ⟨fuel - 1, by omega⟩
    simp [escapeThenQuote, scanString]
  | c :: tl, rest, fuel, h => by
    obtain ⟨f, rfl⟩ : ∃ f, fuel = f + 1 := ⟨fuel - 1, by omega⟩
    have ih := scanString_escapeThenQuote tl rest f (by simpa using h)
    have hstep := scanString_escapeChar c f (escapeThenQuote tl rest) _ ih
    simpa [escapeThenQuote, consChar] using hstep

theorem escapeChar_length_pos (c : Char) : 1 ≤ (escapeChar c).length := by
  unfold escapeChar
  split_ifs <;> simp

theorem escapeThenQuote_length (cs rest : List Char) :
    cs.length < (escapeThenQuote cs rest).length := by
  induction cs with
  | nil => simp [escapeThenQuote]
  | cons c tl ih =>
    have h := escapeChar_length_pos c
    simp only [escapeThenQuote, List.foldr_cons, List.length_append, List.length_cons] at ih ⊢
    omega

theorem escapeThenQuote_append (cs rest more : List Char) :
    escapeThenQuote cs rest ++ more = escapeThenQuote cs (rest ++ more) := by
  induction cs with
  | nil => simp [escapeThenQuote]
  | cons c tl ih =>
    simp only [escapeThenQuote, List.foldr_cons, List.append_assoc] at ih ⊢
    rw [ih]

/-- A quoted string parses back to the string. -/
theorem parseValue_quoteString (fuel : Nat) (s : String) (rest : List Char) :
    parseValue (fuel + 1) (quoteString s ++ rest) = some (JSON.string s, rest) := by
  have hq : quoteString s ++ rest = '"' :: escapeThenQuote s.data rest := by
    simp [quoteString, escapeThenQuote_append]
  rw [hq]
  unfold parseValue
  have hscan := scanString_escapeThenQuote s.data rest
    ((escapeThenQuote s.data rest).length + 1)
    (Nat.lt_succ_of_lt (escapeThenQuote_length s.data rest))
  simp [hscan]

theorem string_mk_data (s : String) : String.mk s.data = s := rfl

theorem parseMembers_fields :
    ∀ (fs : List (String × JSON)) (f0 : String × JSON) (fuel : Nat) (rest : List Char),
      (∀ f ∈ f0 :: fs, GoodField f.1 f.2) → fs.length + 2 ≤ fuel →
      parseMembers fuel ('"' :: (f0.1.data ++ '"' :: ':' :: ' ' ::
          (valueText f0.2 ++ indentMoreMembers (fs.map (fun f => (f.1, valueText f.2))) rest))) =
        some (f0 :: fs, rest)
  | [], f0, fuel, rest, hgood, hfuel => by
    obtain ⟨g, rfl⟩ : ∃ g, fuel = g + 1 + 1 := ⟨fuel - 2, by simp at hfuel; omega⟩
    have h0 := hgood f0 (List.mem_cons_self _ _)
    unfold parseMembers
    simp only [List.map_nil, indentMoreMembers, List.foldr_nil]
    rw [h0.key_scan _ _ (by simp only [List.length_append, List.length_cons]; omega)]
    simp only [skipSpace, isSpace, Char.reduceEq, decide_False, Bool.or_false,
      Bool.false_eq_true, if_false, decide_True, Bool.or_true, Bool.true_or, if_true]
    rw [h0.value_head, h0.value_parse g '\n' _ (Or.inr rfl)]
    simp [skipSpace, isSpace, string_mk_data]
  | f1 :: fs, f0, fuel, rest, hgood, hfuel => by
    obtain ⟨g, rfl⟩ : ∃ g, fuel = g + 1 + 1 := ⟨fuel - 2, by simp at hfuel; omega⟩
    have h0 := hgood f0 (List.mem_cons_self _ _)
    have ih := parseMembers_fields fs f1 (g + 1) rest
      (fun f hf => hgood f (List.mem_cons_of_mem _ hf)) (by simp at hfuel ⊢; omega)
    unfold parseMembers
    simp only [List.map_cons, indentMoreMembers, List.foldr_cons, indentMember,
      List.cons_append, List.append_assoc]
    rw [h0.key_scan _ _ (by simp only [List.length_append, List.length_cons]; omega)]
    simp only [skipSpace, isSpace, Char.reduceEq, decide_False, Bool.or_false,
      Bool.false_eq_true, if_false, decide_True, Bool.or_true, Bool.true_or, if_true]
    rw [h0.value_head, h0.value_parse g ',' _ (Or.inl rfl)]
    simp only [skipSpace, isSpace, Char.reduceEq, decide_False, Bool.or_false,
      Bool.false_eq_true, if_false, decide_True, Bool.or_true, Bool.true_or, if_true]
    simp only [indentMoreMembers, indentMember, List.cons_append, List.append_assoc] at ih
    rw [ih]

theorem marshalMembers_eq (p : Process) :
    marshalMembers p = (marshalFields p).map (fun f => (f.1, valueText f.2)) := by
  unfold marshalMembers marshalFields
  split_ifs <;> simp [valueText]

/-- An object of the array parses back to its fields. -/
theorem parseValue_indentObject (p : Process) (fuel : Nat) (rest : List Char)
    (hgood : ∀ f ∈ marshalFields p, GoodField f.1 f.2)
    (hfuel : (marshalFields p).length + 2 ≤ fuel) :
    parseValue (fuel + 1) (indentObject p rest) = some (JSON.object (marshalFields p), rest) := by
  unfold indentObject
  rw [marshalMembers_eq]
  cases hfs : marshalFields p with
  | nil =>
    simp only [List.map_nil]
    unfold parseValue
    simp [skipSpace, isSpace]
  | cons f0 fs =>
    rw [hfs] at hgood hfuel
    have hm := parseMembers_fields fs f0 fuel rest hgood (by simp at hfuel; omega)
    simp only [List.map_cons, indentMember, List.cons_append, List.append_assoc]
    unfold parseValue
    simp only [skipSpace, isSpace, Char.reduceEq, decide_False, Bool.or_false,
      Bool.false_eq_true, if_false, decide_True, Bool.or_true, Bool.true_or, if_true]
    simp [hm]

theorem indentObject_head (p : Process) (rest : List Char) :
    ∃ tl, indentObject p rest = '{' :: tl := by
  unfold indentObject
  split <;> exact ⟨_, rfl⟩

/-- The elements of a non-empty array parse back, each to its fields. -/
theorem parseElements_indent :
    ∀ (ps : List Process) (p : Process) (fuel : Nat) (rest : List Char),
      (∀ q ∈ p :: ps, ∀ f ∈ marshalFields q, GoodField f.1 f.2) →
      (∀ q ∈ p :: ps, (marshalFields q).length ≤ 6) →
      ps.length + 10 ≤ fuel →
      parseElements fuel (indentObject p (indentMoreElements ps rest)) =
        some ((p :: ps).map (fun q => JSON.object (marshalFields q)), rest)
  | [], p, fuel, rest, hgood, hlen, hfuel => by
    obtain ⟨g, rfl⟩ : ∃ g, fuel = g + 1 + 1 := ⟨fuel - 2, by simp at hfuel; omega⟩
    have hp := parseValue_indentObject p g ('\n' :: ']' :: rest)
      (hgood p (List.mem_cons_self _ _))
      (by have := hlen p (List.mem_cons_self _ _); simp at hfuel; omega)
    unfold parseElements
    simp only [indentMoreElements, List.foldr_nil]
    rw [hp]
    simp [skipSpace, isSpace]
  | q :: ps, p, fuel, rest, hgood, hlen, hfuel => by
    obtain ⟨g, rfl⟩ : ∃ g, fuel = g + 1 + 1 := ⟨fuel - 2, by simp at hfuel; omega⟩
    have hp := parseValue_indentObject p g (indentMoreElements (q :: ps) rest)
      (hgood p (List.mem_cons_self _ _))
      (by have := hlen p (List.mem_cons_self _ _); simp at hfuel; omega)
    have ih := parseElements_indent ps q (g + 1) rest
      (fun x hx => hgood x (List.mem_cons_of_mem _ hx))
      (fun x hx => hlen x (List.mem_cons_of_mem _ hx)) (by simp at hfuel ⊢; omega)
    obtain ⟨tl, htl⟩ := indentObject_head q (indentMoreElements ps rest)
    unfold parseElements
    rw [hp]
    have hmore : indentMoreElements (q :: ps) rest =
        ',' :: '\n' :: ' ' :: ' ' :: indentObject q (indentMoreElements ps rest) := rfl
    rw [hmore, htl]
    rw [htl] at ih
    simp only [skipSpace, isSpace, Char.reduceEq, decide_False, Bool.or_false,
      Bool.false_eq_true, if_false, decide_True, Bool.or_true, Bool.true_or, if_true]
    rw [ih]
    simp

/-- The indented document parses back to the array of the objects. -/
theorem parseValue_indentArray (v : List Process) (fuel : Nat) (rest : List Char)
    (hgood : ∀ q ∈ v, ∀ f ∈ marshalFields q, GoodField f.1 f.2)
    (hlen : ∀ q ∈ v, (marshalFields q).length ≤ 6) (hfuel : v.length + 10 ≤ fuel) :
    parseValue (fuel + 1) (indentArray v rest) =
      some (JSON.array (v.map (fun q => JSON.object (marshalFields q))), rest) := by
  cases v with
  | nil =>
    unfold parseValue
    simp [indentArray, skipSpace, isSpace]
  | cons p ps =>
    have he := parseElements_indent ps p fuel rest hgood hlen (by simp at hfuel; omega)
    obtain ⟨tl, htl⟩ := indentObject_head p (indentMoreElements ps rest)
    unfold parseValue
    simp only [indentArray]
    rw [htl] at he ⊢
    simp only [skipSpace, isSpace, Char.reduceEq, decide_False, Bool.or_false,
      Bool.false_eq_true, if_false, decide_True, Bool.or_true, Bool.true_or, if_true]
    simp [he]

theorem isDigit_ne (c : Char) (h : c.isDigit = true) :
    c ≠ '{' ∧ c ≠ '[' ∧ c ≠ '"' ∧ c ≠ 't' ∧ c ≠ 'f' ∧ c ≠ 'n' ∧ isSpace c = false := by
  refine ⟨?_, ?_, ?_, ?_, ?_, ?_, ?_⟩ <;>
    first
      | (rintro rfl; exact absurd h (by decide))
      | (simp only [isSpace, Bool.or_eq_false_iff, decide_eq_false_iff_not]
         refine ⟨⟨⟨?_, ?_⟩, ?_⟩, ?_⟩ <;> (rintro rfl; exact absurd h (by decide)))

theorem goodField_number (key : String) (n : Int) (hn : n ≠ 0)
    (hkey : ∀ rest : List Char, escapeThenQuote key.data rest = key.data ++ '"' :: rest) :
    GoodField key (JSON.number (formatD n).data) := by
  have hdec := formatD_isDecimal n hn
  obtain ⟨d, tl, hlit, hd, hd0, hdm, htl, _⟩ := hdec.shape
  obtain ⟨b1, b2, b3, b4, b5, b6, b7⟩ := isDigit_ne d hd
  refine ⟨?_, ?_, ?_⟩
  · intro fuel rest hfuel
    rw [← hkey rest]
    exact scanString_escapeThenQuote key.data rest fuel hfuel
  · intro fuel c rest hc
    have hscan := scanNumber_decimal _ n hdec c rest
      (by rcases hc with rfl | rfl <;> decide) (by rcases hc with rfl | rfl <;> decide)
      (by rcases hc with rfl | rfl <;> decide) (by rcases hc with rfl | rfl <;> decide)
    simp only [valueText]
    by_cases hneg : n < 0
    · simp only [hneg, if_true, List.singleton_append] at hlit
      rw [hlit] at hscan ⊢
      exact parseValue_number fuel '-' (d :: tl) c rest (by decide) (by decide) (by decide)
        (by decide) (by decide) (by decide) hscan
    · simp only [hneg, if_false, List.nil_append] at hlit
      rw [hlit] at hscan ⊢
      exact parseValue_number fuel d tl c rest b1 b2 b3 b4 b5 b6 hscan
  · intro rest
    simp only [valueText]
    by_cases hneg : n < 0
    · simp only [hneg, if_true, List.singleton_append] at hlit
      rw [hlit]
      simp [skipSpace, isSpace]
    · simp only [hneg, if_false, List.nil_append] at hlit
      rw [hlit]
      simp [skipSpace, b7]

theorem goodField_string (key : String) (s : String)
    (hkey : ∀ rest : List Char, escapeThenQuote key.data rest = key.data ++ '"' :: rest) :
    GoodField key (JSON.string s) := by
  refine ⟨?_, ?_, ?_⟩
  · intro fuel rest hfuel
    rw [← hkey rest]
    exact scanString_escapeThenQuote key.data rest fuel hfuel
  · intro fuel c rest _
    exact parseValue_quoteString fuel s (c :: rest)
  · intro rest
    simp [valueText, quoteString, skipSpace, isSpace]

theorem plainKey_tgid (rest : List Char) :
    escapeThenQuote "tgid".data rest = "tgid".data ++ '"' :: rest := by
  simp [escapeThenQuote, escapeChar]

theorem plainKey_pid (rest : List Char) :
    escapeThenQuote "pid".data rest = "pid".data ++ '"' :: rest := by
  simp [escapeThenQuote, escapeChar]

theorem plainKey_comm (rest : List Char) :
    escapeThenQuote "comm".data rest = "comm".data ++ '"' :: rest := by
  simp [escapeThenQuote, escapeChar]

theorem plainKey_namespace (rest : List Char) :
    escapeThenQuote "namespace".data rest = "namespace".data ++ '"' :: rest := by
  simp [escapeThenQuote, escapeChar]

theorem plainKey_pod (rest : List Char) :
    escapeThenQuote "pod".data rest = "pod".data ++ '"' :: rest := by
  simp [escapeThenQuote, escapeChar]

theorem plainKey_container (rest : List Char) :
    escapeThenQuote "container".data rest = "container".data ++ '"' :: rest := by
  simp [escapeThenQuote, escapeChar]

theorem marshalFields_good (p : Process) : ∀ f ∈ marshalFields p, GoodField f.1 f.2 := by
  intro f hf
  unfold marshalFields at hf
  simp only [List.mem_append] at hf
  rcases hf with hf | hf | hf | hf | hf | hf <;> split_ifs at hf with h0 <;>
    first
      | exact absurd hf (List.not_mem_nil _)
      | (rw [List.mem_singleton.mp hf]
         first
           | exact goodField_number _ _ h0 plainKey_tgid
           | exact goodField_number _ _ h0 plainKey_pid
           | exact goodField_string _ _ plainKey_comm
           | exact goodField_string _ _ plainKey_namespace
           | exact goodField_string _ _ plainKey_pod
           | exact goodField_string _ _ plainKey_container)

theorem marshalFields_length (p : Process) : (marshalFields p).length ≤ 6 := by
  unfold marshalFields
  split_ifs <;> simp

theorem storeInt_formatD (old n : Int) (hn : n ≠ 0) (hr : inInt64 n) :
    storeInt old (JSON.number (formatD n).data) = (n, false) := by
  simp [storeInt, parseInt64_decimal _ n (formatD_isDecimal n hn) hr.1 hr.2]

theorem decodeProcess_marshalFields (p : Process) (ht : inInt64 p.Tgid) (hp : inInt64 p.Pid) :
    decodeProcess (JSON.object (marshalFields p)) = (p, false) := by
  obtain ⟨tgid, pid, comm, ns, pod, container⟩ := p
  have e1 : equalFold "tgid" "tgid" = true := by decide
  have e2 : equalFold "tgid" "pid" = false := by decide
  have e3 : equalFold "tgid" "comm" = false := by decide
  have e4 : equalFold "tgid" "namespace" = false := by decide
  have e5 : equalFold "tgid" "pod" = false := by decide
  have e6 : equalFold "tgid" "container" = false := by decide
  have e7 : equalFold "pid" "pid" = true := by decide
  have e8 : equalFold "pid" "comm" = false := by decide
  have e9 : equalFold "pid" "namespace" = false := by decide
  have e10 : equalFold "pid" "pod" = false := by decide
  have e11 : equalFold "pid" "container" = false := by decide
  have e12 : equalFold "comm" "comm" = true := by decide
  have e13 : equalFold "comm" "namespace" = false := by decide
  have e14 : equalFold "comm" "pod" = false := by decide
  have e15 : equalFold "comm" "container" = false := by decide
  have e16 : equalFold "namespace" "namespace" = true := by decide
  have e17 : equalFold "namespace" "pod" = false := by decide
  have e18 : equalFold "namespace" "container" = false := by decide
  have e19 : equalFold "pod" "pod" = true := by decide
  have e20 : equalFold "pod" "container" = false := by decide
  have e21 : equalFold "container" "container" = true := by decide
  simp only [marshalFields, decodeProcess, Process.zero]
  split_ifs with h1 h2 h3 h4 h5 h6 <;>
    simp only [List.nil_append, List.singleton_append, List.foldl_cons, List.foldl_nil,
      storeMember, e1, e2, e3, e4, e5, e6, e7, e8, e9, e10, e11, e12, e13, e14, e15, e16, e17,
      e18, e19, e20, e21, if_true, if_false, Bool.false_eq_true, storeString,
      Bool.or_false, Bool.or_self] <;>
    simp_all [storeInt_formatD]

theorem indentMoreMembers_append (ms : List (String × List Char)) (rest more : List Char) :
    indentMoreMembers ms rest ++ more = indentMoreMembers ms (rest ++ more) := by
  induction ms with
  | nil => simp [indentMoreMembers]
  | cons m ms ih =>
    simp only [indentMoreMembers, List.foldr_cons, List.cons_append, List.append_assoc] at ih ⊢
    rw [ih]

theorem indentObject_append (p : Process) (rest more : List Char) :
    indentObject p rest ++ more = indentObject p (rest ++ more) := by
  unfold indentObject
  split
  · simp
  · simp [indentMoreMembers_append]

theorem indentMoreElements_append (ps : List Process) (rest more : List Char) :
    indentMoreElements ps rest ++ more = indentMoreElements ps (rest ++ more) := by
  induction ps with
  | nil => simp [indentMoreElements]
  | cons p ps ih =>
    simp only [indentMoreElements, List.foldr_cons, List.cons_append] at ih ⊢
    rw [indentObject_append, ih]

theorem indentArray_append (v : List Process) (rest more : List Char) :
    indentArray v rest ++ more = indentArray v (rest ++ more) := by
  cases v with
  | nil => simp [indentArray]
  | cons p ps => simp [indentArray, indentObject_append, indentMoreElements_append]

theorem indentObject_length (p : Process) (rest : List Char) :
    rest.length + 2 ≤ (indentObject p rest).length := by
  have hmore : ∀ ms : List (String × List Char),
      rest.length ≤ (indentMoreMembers ms rest).length := by
    intro ms
    induction ms with
    | nil =>
      simp only [indentMoreMembers, List.foldr_nil, List.length_cons]
      omega
    | cons m ms ih =>
      simp only [indentMoreMembers, List.foldr_cons, List.length_cons, List.length_append] at ih ⊢
      omega
  unfold indentObject
  split
  · simp
  · rename_i m ms _
    have := hmore ms
    simp only [indentMember, List.length_cons, List.length_append]
    omega

theorem indentMoreElements_length (ps : List Process) (rest : List Char) :
    ps.length ≤ (indentMoreElements ps rest).length := by
  induction ps with
  | nil => simp
  | cons p ps ih =>
    have h := indentObject_length p (indentMoreElements ps rest)
    have hm : indentMoreElements (p :: ps) rest =
        ',' :: '\n' :: ' ' :: ' ' :: indentObject p (indentMoreElements ps rest) := rfl
    rw [hm]
    simp only [List.length_cons]
    omega

theorem indentArray_length (p : Process) (ps : List Process) (rest : List Char) :
    ps.length + 6 ≤ (indentArray (p :: ps) rest).length := by
  have h1 := indentObject_length p (indentMoreElements ps rest)
  have h2 := indentMoreElements_length ps rest
  simp only [indentArray, List.length_cons]
  omega

theorem indentArray_head (v : List Process) (rest : List Char) :
    ∃ tl, indentArray v rest = '[' :: tl := by
  cases v <;> exact ⟨_, rfl⟩

/-- Decoding the indented document, followed by any white space that ends the
input, gives back the records. -/
theorem jsonUnmarshalProcesses_indentArray (v : List Process) (trailer : List Char)
    (htrailer : skipSpace trailer = [])
    (hrange : ∀ p ∈ v, inInt64 p.Tgid ∧ inInt64 p.Pid) :
    jsonUnmarshalProcesses (String.mk (indentArray v [] ++ trailer)) = (v, none) := by
  have hparse : parseJSON (String.mk (indentArray v [] ++ trailer)) =
      some (JSON.array (v.map (fun q => JSON.object (marshalFields q)))) := by
    unfold parseJSON
    rw [indentArray_append, List.nil_append]
    obtain ⟨tl, htl⟩ := indentArray_head v trailer
    have hskip : skipSpace (indentArray v trailer) = indentArray v trailer := by
      rw [htl]
      simp [skipSpace, isSpace]
    simp only [hskip]
    have hfuel : 2 * (String.mk (indentArray v trailer)).length + 2 =
        (2 * (indentArray v trailer).length + 1) + 1 := rfl
    rw [hfuel]
    cases v with
    | nil =>
      unfold parseValue
      simp [indentArray, skipSpace, isSpace, htrailer]
    | cons p ps =>
      have hlen := indentArray_length p ps trailer
      rw [parseValue_indentArray (p :: ps) _ trailer
        (fun q _ => marshalFields_good q) (fun q _ => marshalFields_length q)
        (by simp only [List.length_cons]; omega)]
      simp [htrailer]
  have hdecode : (v.map (fun q => JSON.object (marshalFields q))).map decodeProcess =
      v.map (fun q => (q, false)) := by
    rw [List.map_map]
    refine List.map_congr_left ?_
    intro q hq
    exact decodeProcess_marshalFields q (hrange q hq).1 (hrange q hq).2
  unfold jsonUnmarshalProcesses
  rw [hparse]
  simp only [hdecode, List.map_map]
  have hfst : (Prod.fst ∘ fun q : Process => (q, false)) = id := rfl
  simp [hfst]

theorem indentMoreMembers_length (ms : List (String × List Char)) (rest : List Char) :
    ms.length + rest.length ≤ (indentMoreMembers ms rest).length := by
  induction ms with
  | nil =>
    simp only [indentMoreMembers, List.foldr_nil, List.length_cons, List.length_nil]
    omega
  | cons m ms ih =>
    simp only [indentMoreMembers, List.foldr_cons, List.length_cons, List.length_append] at ih ⊢
    omega

theorem indentObject_length_fields (p : Process) (rest : List Char) :
    (marshalFields p).length + 2 ≤ (indentObject p rest).length := by
  unfold indentObject
  rw [marshalMembers_eq]
  cases marshalFields p with
  | nil => simp
  | cons f fs =>
    have h := indentMoreMembers_length (fs.map (fun f => (f.1, valueText f.2))) rest
    simp only [List.map_cons, List.length_cons, List.length_append, List.length_map,
      indentMember] at h ⊢
    omega

/-- The representation of one record parses to an object with the fields the
encoder wrote. -/
theorem parseJSON_indentObject (p : Process) :
    parseJSON (String.mk (indentObject p [])) = some (JSON.object (marshalFields p)) := by
  unfold parseJSON
  obtain ⟨tl, htl⟩ := indentObject_head p []
  have hskip : skipSpace (indentObject p []) = indentObject p [] := by
    rw [htl]
    simp [skipSpace, isSpace]
  have hfuel : 2 * (String.mk (indentObject p [])).length + 2 =
      (2 * (indentObject p []).length + 1) + 1 := rfl
  simp only [hskip]
  rw [hfuel, parseValue_indentObject p _ [] (marshalFields_good p)
    (by have := indentObject_length_fields p []; omega)]
  simp [skipSpace]

/-- C12. Rendering a list of process records in structured mode never fails,
and decoding the printed document (the indented JSON and its final newline)
with the decoder of the pipeline returns the rendered list, without error; the
fields left out as empty come back as 0 or the empty string.  The integers are
those of a Go `int`. -/
theorem C12_structured_roundtrip (tabwriter : String → String) (allProcesses : List Process)
    (hrange : ∀ p ∈ allProcesses, inInt64 p.Tgid ∧ inInt64 p.Pid) :
    (renderJson (processStdLib tabwriter) allProcesses).fatal = none ∧
      jsonUnmarshalProcesses (renderJson (processStdLib tabwriter) allProcesses).stdout =
        (allProcesses, none) := by
  refine ⟨rfl, ?_⟩
  exact jsonUnmarshalProcesses_indentArray allProcesses ['\n'] (by decide) hrange

/-- Witness of C12 on a record with all fields set and a record with none. -/
theorem C12_structured_roundtrip_witness :
    (∀ p ∈ [(⟨1, 1, "init", "kube-system", "p1", "c1"⟩ : Process), ⟨0, 0, "", "", "", ""⟩],
        inInt64 p.Tgid ∧ inInt64 p.Pid) ∧
      (renderJson (processStdLib id)
          [⟨1, 1, "init", "kube-system", "p1", "c1"⟩, ⟨0, 0, "", "", "", ""⟩]).fatal = none ∧
      jsonUnmarshalProcesses (renderJson (processStdLib id)
          [⟨1, 1, "init", "kube-system", "p1", "c1"⟩, ⟨0, 0, "", "", "", ""⟩]).stdout =
        ([⟨1, 1, "init", "kube-system", "p1", "c1"⟩, ⟨0, 0, "", "", "", ""⟩], none) :=
  ⟨by decide, C12_structured_roundtrip id _ (by decide)⟩

/-- C13. The structured representation of a process record is an object whose
members are the fields the encoder wrote, and it has a member named after a
field exactly when the field is not empty: `tgid`, `pid` when the integer is
not 0, `comm`, `namespace`, `pod`, `container` when the string is not empty. -/
theorem C13_omitempty (p : Process) :
    parseJSON (String.mk (indentObject p [])) = some (JSON.object (marshalFields p)) ∧
      ("tgid" ∈ (marshalFields p).map Prod.fst ↔ p.Tgid ≠ 0) ∧
      ("pid" ∈ (marshalFields p).map Prod.fst ↔ p.Pid ≠ 0) ∧
      ("comm" ∈ (marshalFields p).map Prod.fst ↔ p.Comm ≠ "") ∧
      ("namespace" ∈ (marshalFields p).map Prod.fst ↔ p.KubernetesNamespace ≠ "") ∧
      ("pod" ∈ (marshalFields p).map Prod.fst ↔ p.KubernetesPod ≠ "") ∧
      ("container" ∈ (marshalFields p).map Prod.fst ↔ p.KubernetesContainer ≠ "") := by
  refine ⟨parseJSON_indentObject p, ?_, ?_, ?_, ?_, ?_, ?_⟩ <;>
    (unfold marshalFields
     split_ifs <;> simp_all)

/-! ### The records of the pipeline are within the range of `int` -/

theorem parseInt64_inInt64 (lit : List Char) (n : Int) (h : parseInt64 lit = some n) :
    inInt64 n := by
  unfold parseInt64 at h
  simp only at h
  split at h
  · split_ifs at h with hr
    · have hn := Option.some.inj h
      rw [← hn]
      exact hr
  · exact absurd h (by simp)

theorem storeInt_inInt64 (old : Int) (v : JSON) (h : inInt64 old) :
    inInt64 (storeInt old v).1 := by
  unfold storeInt
  split
  · exact h
  · split
    · rename_i n hn
      exact parseInt64_inInt64 _ n hn
    · exact h
  · exact h

theorem storeMember_inInt64 (p : Process) (m : String × JSON)
    (h : inInt64 p.Tgid ∧ inInt64 p.Pid) :
    inInt64 (storeMember p m).1.Tgid ∧ inInt64 (storeMember p m).1.Pid := by
  unfold storeMember
  split_ifs
  · exact ⟨storeInt_inInt64 _ _ h.1, h.2⟩
  · exact ⟨h.1, storeInt_inInt64 _ _ h.2⟩
  all_goals exact h

theorem decodeProcess_inInt64 (v : JSON) :
    inInt64 (decodeProcess v).1.Tgid ∧ inInt64 (decodeProcess v).1.Pid := by
  have hzero : inInt64 Process.zero.Tgid ∧ inInt64 Process.zero.Pid := by decide
  have hfold : ∀ (ms : List (String × JSON)) (acc : Process × Bool),
      (inInt64 acc.1.Tgid ∧ inInt64 acc.1.Pid) →
      inInt64 (ms.foldl
          (fun acc m => ((storeMember acc.1 m).1, acc.2 || (storeMember acc.1 m).2)) acc).1.Tgid ∧
        inInt64 (ms.foldl
          (fun acc m => ((storeMember acc.1 m).1, acc.2 || (storeMember acc.1 m).2)) acc).1.Pid := by
    intro ms
    induction ms with
    | nil => exact fun _ h => h
    | cons m ms ih =>
      intro acc h
      exact ih _ (storeMember_inInt64 acc.1 m h)
  unfold decodeProcess
  split
  · exact hfold _ _ hzero
  · exact hzero
  · exact hzero

/-- Every record the decoder leaves in the slice holds integers of a Go `int`. -/
theorem jsonUnmarshalProcesses_inInt64 (s : String) :
    ∀ p ∈ (jsonUnmarshalProcesses s).1, inInt64 p.Tgid ∧ inInt64 p.Pid := by
  intro p hp
  unfold jsonUnmarshalProcesses at hp
  split at hp
  · exact absurd hp (List.not_mem_nil _)
  · simp only [List.map_map, List.mem_map, Function.comp] at hp
    obtain ⟨v, _, hv⟩ := hp
    rw [← hv]
    exact decodeProcess_inInt64 v
  · exact absurd hp (List.not_mem_nil _)
  · exact absurd hp (List.not_mem_nil _)

/-- The structured output of the whole process callback, decoded back, is the
list of records that was handed to the renderer. -/
theorem processCollectorCmdRun_roundtrip (tabwriter : String → String) (threads : Bool)
    (items : List String) :
    jsonUnmarshalProcesses
        (processCollectorCmdRun (processStdLib tabwriter) OutputMode.OutputModeJson threads
          items).stdout =
      (processRecords jsonUnmarshalProcesses threads items, none) := by
  have hrange : ∀ p ∈ processRecords jsonUnmarshalProcesses threads items,
      inInt64 p.Tgid ∧ inInt64 p.Pid := by
    intro p hp
    have h1 : p ∈ filterThreads threads (aggregate jsonUnmarshalProcesses items) :=
      (sortSlice_perm _ _).mem_iff.mp hp
    have h2 : p ∈ aggregate jsonUnmarshalProcesses items := by
      cases threads
      · simp only [filterThreads, Bool.not_false, if_true, trimThreads_eq_filter] at h1
        exact (List.mem_filter.mp h1).1
      · simpa [filterThreads] using h1
    rw [aggregate_eq_flatten] at h2
    simp only [List.mem_flatten, List.mem_map] at h2
    obtain ⟨l, ⟨i, _, hi⟩, hl⟩ := h2
    rw [← hi] at hl
    exact jsonUnmarshalProcesses_inInt64 i p hl
  simp only [processCollectorCmdRun, if_true]
  exact jsonUnmarshalProcesses_indentArray _ ['\n'] (by decide) hrange

end Collector
